import Mathlib

set_option maxHeartbeats 1000000
set_option maxRecDepth 4000

/-!
Verification of the core of a PintOS-style on-disk file system, by a shallow
embedding of its C sources into Lean.

The development models four layers, each as translated from the source:

* the inode layer (`byte_to_sector`, `inode_read_at`, `inode_write_at`,
  `inode_close`) over a state holding the on-disk inode record, the pointer
  contents of indirect sectors, the byte contents of data sectors and the
  free-map allocator;
* the directory / path-resolution layer (`trace_path`,
  `retrieve_dir_from_location`, `filesys_create`, `filesys_remove`);
* the open-inode table (`inode_open`, `inode_reopen`, `inode_close`);
* the buffer cache (`find_buffer`, `allocate_buffer`, `deallocate_buffer`,
  `write_dirty_to_disk`).

Modelling conventions, stated once:

* machine integers (`off_t`, `size_t`, `block_sector_t`) are modelled as `Nat`;
  the C code computes chunk sizes in signed arithmetic and breaks the copy
  loops on `chunk_size <= 0`, which coincides with truncated `Nat`
  subtraction producing `0`, so the `Nat` model breaks the loop on
  `chunk = 0`;
* `free_map_allocate` is modelled as a counter allocator that always succeeds
  and hands out the fresh sector `next_free` (the claims under study all
  concern executions in which allocation succeeds; sector `0` means
  "unallocated", so the counter starts at `1` and the in-memory sentinel
  `NO_SECTOR` is never produced);
* the disk is split into three views that the code never mixes on one sector:
  the inode's own record (fields `sectors`, `length`, held apart, as the
  free map never hands the inode's sector out again), pointer sectors
  (`ptrs : Nat -> Nat -> Nat`, sector -> slot -> stored pointer) and data
  sectors (`data : Nat -> Nat -> Nat`, sector -> byte offset -> byte); the
  `memset` of a freshly allocated sector zeroes both views of that sector;
* the buffer cache is write-through-invisible at the inode layer: reads and
  writes go to the single authoritative copy, which matches the C code since
  every access flows through `allocate_buffer` on the same cache;
* the C loops are written with an explicit fuel argument so that they stay
  structurally recursive and kernel-evaluable; every call site passes a fuel
  that the loop can never exhaust (each iteration consumes at least one byte
  of `size`, resp. one character of the path), so the fuel branch is dead
  code and the model is exact.
-/

/-! ## Constants (filesys/inode.h) -/

def BLOCK_SECTOR_SIZE : Nat := 512
def DIRECT_BLOCKS : Nat := 124
def BLOCKS_PER_SECTOR : Nat := 125
def MAX_FILE_SIZE : Nat := 8127488
def NAME_MAX : Nat := 14
def ROOT_DIR_SECTOR : Nat := 1

/-! ## Inode-layer state

One in-memory inode over a disk, as used by `inode.c`.  `sectors` is the
on-disk inode record's pointer array `sectors[DIRECT_BLOCKS + 2]`, `length`
its length field, `deny_write_cnt` the in-memory deny counter.  `ptrs` and
`data` are the two views of every other disk sector, `next_free` the free-map
counter.  `next_sector_to_read` / `next_sector_present` model the read-ahead
nomination of `cache.c` that `start_read_ahead` sets. -/

structure FsState where
  sectors : Nat → Nat
  length : Nat
  deny_write_cnt : Nat
  ptrs : Nat → Nat → Nat
  data : Nat → Nat → Nat
  next_free : Nat
  next_sector_to_read : Nat
  next_sector_present : Bool

/-- Pointwise update of a one-argument map. -/
def setArr (f : Nat → Nat) (i v : Nat) : Nat → Nat :=
  fun j => if j = i then v else f j

/-- Pointwise update of one slot of one pointer sector. -/
def setPtr (g : Nat → Nat → Nat) (p i v : Nat) : Nat → Nat → Nat :=
  fun q => if q = p then setArr (g p) i v else g q

/-- The `memset (..., 0, BLOCK_SECTOR_SIZE)` of a freshly allocated sector:
zero both views of sector `s`. -/
def zeroSector (fs : FsState) (s : Nat) : FsState :=
  { fs with
    ptrs := fun q => if q = s then (fun _ => 0) else fs.ptrs q,
    data := fun q o => if q = s then 0 else fs.data q o }

/-- `byte_to_indirect_sector` (inode.c): clamp the block index to
`DIRECT_BLOCKS`, read `inode->data->sectors[idx]`, allocate (and zero) a
fresh sector on demand, storing it back into the record.  Returns the sector
together with the new state. -/
def byte_to_indirect_sector (fs : FsState) (idx : Nat) : Nat × FsState :=
  let i := if DIRECT_BLOCKS ≤ idx then DIRECT_BLOCKS else idx
  let s := fs.sectors i
  if s = 0 then
    let ns := fs.next_free
    let fs1 := { fs with next_free := ns + 1, sectors := setArr fs.sectors i ns }
    (ns, zeroSector fs1 ns)
  else (s, fs)

/-- `byte_to_double_indirect_sec` (inode.c): read slot `idx` of pointer
sector `parent`, allocate (and zero) a fresh sector on demand, storing it
into the parent slot. -/
def byte_to_double_indirect_sec (fs : FsState) (parent idx : Nat) : Nat × FsState :=
  let s := fs.ptrs parent idx
  if s = 0 then
    let ns := fs.next_free
    let fs1 := { fs with next_free := ns + 1, ptrs := setPtr fs.ptrs parent idx ns }
    (ns, zeroSector fs1 ns)
  else (s, fs)

/-- The outer slot index `byte_to_sector` computes for an offset past the
direct range: `idx = (pos - 512*124); idx / (125*512)`. -/
def outerSlot (pos : Nat) : Nat :=
  (pos - BLOCK_SECTOR_SIZE * DIRECT_BLOCKS) / (BLOCKS_PER_SECTOR * BLOCK_SECTOR_SIZE)

/-- The inner slot index `byte_to_sector` computes for an offset past the
direct range: `idx = (pos - 512*124); idx / 512 % 125`. -/
def innerSlot (pos : Nat) : Nat :=
  (pos - BLOCK_SECTOR_SIZE * DIRECT_BLOCKS) / BLOCK_SECTOR_SIZE % BLOCKS_PER_SECTOR

/-- `byte_to_sector` (inode.c).  Note the source's actual control flow: the
first walker call clamps `idx` to `DIRECT_BLOCKS`, so every offset at or past
`DIRECT_BLOCKS * 512` goes through `sectors[DIRECT_BLOCKS]`, and the two
further walker calls then treat that sector as the root of a two-level tree
with outer slot `outerSlot pos` and inner slot `innerSlot pos`.
`sectors[DIRECT_BLOCKS + 1]` is never touched. -/
def byte_to_sector (fs : FsState) (pos : Nat) : Nat × FsState :=
  let idx := pos / BLOCK_SECTOR_SIZE
  let r1 := byte_to_indirect_sector fs idx
  if DIRECT_BLOCKS ≤ idx then
    let r2 := byte_to_double_indirect_sec r1.2 r1.1 (outerSlot pos)
    byte_to_double_indirect_sec r2.2 r2.1 (innerSlot pos)
  else r1

/-- Pure read-only replay of the walk `byte_to_sector` performs: the data
sector currently backing byte offset `pos`, or `none` where the walk would
allocate.  Used to state frame and round-trip properties. -/
def resolveSector (fs : FsState) (pos : Nat) : Option Nat :=
  let idx := pos / BLOCK_SECTOR_SIZE
  if idx < DIRECT_BLOCKS then
    if fs.sectors idx = 0 then none else some (fs.sectors idx)
  else
    let root := fs.sectors DIRECT_BLOCKS
    if root = 0 then none
    else
      let s2 := fs.ptrs root (outerSlot pos)
      if s2 = 0 then none
      else
        let s3 := fs.ptrs s2 (innerSlot pos)
        if s3 = 0 then none else some s3

/-- The `memcpy` into a data sector performed by one `inode_write_at`
iteration: bytes `[ofs, ofs + c)` of sector `sec` become
`buf (w), buf (w+1), ...`. -/
def writeBytes (fs : FsState) (sec ofs c w : Nat) (buf : Nat → Nat) : FsState :=
  { fs with
    data := fun s o =>
      if s = sec ∧ ofs ≤ o ∧ o < ofs + c then buf (w + (o - ofs)) else fs.data s o }

/-- The copying loop of `inode_write_at`.  `fuel` is an upper bound on the
number of iterations (each iteration consumes at least one byte of `size`,
so any `fuel ≥ size` is exact). -/
def write_loop : Nat → FsState → (Nat → Nat) → Nat → Nat → Nat → Nat × FsState
  | 0, fs, _, written, _, _ => (written, fs)
  | fuel + 1, fs, buf, written, size, offset =>
    if size = 0 then (written, fs)
    else
      let r := byte_to_sector fs offset
      let sector_ofs := offset % BLOCK_SECTOR_SIZE
      let chunk := min size (min (MAX_FILE_SIZE - offset) (BLOCK_SECTOR_SIZE - sector_ofs))
      if chunk = 0 then (written, r.2)
      else
        write_loop fuel (writeBytes r.2 r.1 sector_ofs chunk written buf) buf
          (written + chunk) (size - chunk) (offset + chunk)

/-- `inode_write_at` (inode.c): refuse when `deny_write_cnt > 0`, run the
copy loop, then update the stored length to the final offset when the file
was extended. -/
def inode_write_at (fs : FsState) (buf : Nat → Nat) (size offset : Nat) : Nat × FsState :=
  if fs.deny_write_cnt ≠ 0 then (0, fs)
  else
    let r := write_loop size fs buf 0 size offset
    if r.2.length < offset + r.1 then (r.1, { r.2 with length := offset + r.1 })
    else (r.1, r.2)

/-- The copying loop of `inode_read_at`, returning the list of bytes read. -/
def read_loop : Nat → FsState → Nat → Nat → List Nat × FsState
  | 0, fs, _, _ => ([], fs)
  | fuel + 1, fs, size, offset =>
    if size = 0 then ([], fs)
    else
      let r := byte_to_sector fs offset
      let sector_ofs := offset % BLOCK_SECTOR_SIZE
      let chunk := min size (min (r.2.length - offset) (BLOCK_SECTOR_SIZE - sector_ofs))
      if chunk = 0 then ([], r.2)
      else
        let bytes := (List.range chunk).map (fun i => r.2.data r.1 (sector_ofs + i))
        let rest := read_loop fuel r.2 (size - chunk) (offset + chunk)
        (bytes ++ rest.1, rest.2)

/-- `start_read_ahead` (inode.c): when one more full sector lies within the
file length, walk to it (possibly allocating) and nominate it for
read-ahead. -/
def start_read_ahead (fs : FsState) (offset : Nat) : FsState :=
  if offset + BLOCK_SECTOR_SIZE - 1 < fs.length then
    let r := byte_to_sector fs (offset + BLOCK_SECTOR_SIZE - 1)
    { r.2 with next_sector_to_read := r.1, next_sector_present := true }
  else fs

/-- `inode_read_at` (inode.c): return 0 bytes at or past the length,
otherwise run the copy loop and finally nominate the next sector for
read-ahead at the advanced offset. -/
def inode_read_at (fs : FsState) (size offset : Nat) : List Nat × FsState :=
  if fs.length ≤ offset then ([], fs)
  else
    let r := read_loop size fs size offset
    (r.1, start_read_ahead r.2 (offset + r.1.length))

/-- The sectors `inode_close` releases on the removed-last-close path, in
release order: every non-zero direct pointer, then (when
`sectors[DIRECT_BLOCKS]` is non-zero) the value of each of its
`BLOCKS_PER_SECTOR` slots — released unconditionally, zero or not — and
finally `sectors[DIRECT_BLOCKS]` itself.  (The C code reads the slots
through an uninitialized pointer, which is undefined behaviour; the model
reads the intended pointer array.  `sectors[DIRECT_BLOCKS + 1]` and the
level-2 sectors below the slots are never visited.) -/
def close_released_sectors (fs : FsState) : List Nat :=
  let single := fs.sectors DIRECT_BLOCKS
  ((List.range DIRECT_BLOCKS).filter (fun i => fs.sectors i ≠ 0)).map fs.sectors
    ++ (if single ≠ 0 then
          ((List.range BLOCKS_PER_SECTOR).map (fun i => fs.ptrs single i)) ++ [single]
        else [])

/-- `inode_create` over an otherwise empty disk: a fresh on-disk record with
the given length, all pointers zero (the record is `calloc`ed), the free-map
counter at its first usable sector. -/
def inode_create (len : Nat) : FsState :=
  { sectors := fun _ => 0
    length := len
    deny_write_cnt := 0
    ptrs := fun _ _ => 0
    data := fun _ _ => 0
    next_free := 1
    next_sector_to_read := 0
    next_sector_present := false }

/-- A freshly created empty file. -/
def freshFS : FsState := inode_create 0

/-! ## Claim C1: the offset-to-sector mapping -/

/-- A payload of arbitrary bytes, for concrete executions. -/
def bufC : Nat → Nat := fun i => i + 11

/-- `byte_to_double_indirect_sec` never changes the inode record's pointer
array. -/
theorem bdis_sectors_eq (fs : FsState) (p i : Nat) :
    ((byte_to_double_indirect_sec fs p i).2).sectors = fs.sectors := by
  unfold byte_to_double_indirect_sec zeroSector
  dsimp only
  split <;> rfl

/-- `byte_to_indirect_sector` only writes the record at an index at most
`DIRECT_BLOCKS`, so every higher slot is untouched. -/
theorem bti_sectors_high (fs : FsState) (idx j : Nat) (hj : DIRECT_BLOCKS < j) :
    ((byte_to_indirect_sector fs idx).2).sectors j = fs.sectors j := by
  unfold byte_to_indirect_sector zeroSector
  dsimp only
  split
  · split
    · dsimp only
      simp only [setArr]
      rw [if_neg (by omega)]
    · rfl
  · split
    · dsimp only
      simp only [setArr]
      rw [if_neg (by omega)]
    · rfl

/-- Claim C1 (code_bug evaluation).  The spec's indexed-allocation mapping
says a write at offset `(124 + 125) * 512 = 127488` reaches the
double-indirect tree at `sectors[125]`.  Evaluating the code on a fresh file
at that exact offset: the write succeeds (returns 1) yet `sectors[125]`
stays 0; instead the code allocated `sectors[124]` (sector 1) as the root of
a two-level tree, with outer slot 1 of sector 1 pointing at sector 2 and
inner slot 0 of sector 2 pointing at the data sector 3.  Moreover
`byte_to_sector` never changes `sectors[DIRECT_BLOCKS + 1]` at any offset in
any state, so the spec's double-indirect sector can never become
non-zero. -/
theorem c1_write_127488_never_touches_sector125 :
    (∀ fs pos, ((byte_to_sector fs pos).2).sectors (DIRECT_BLOCKS + 1)
        = fs.sectors (DIRECT_BLOCKS + 1)) ∧
    (inode_write_at freshFS bufC 1 127488).1 = 1 ∧
    ((inode_write_at freshFS bufC 1 127488).2).sectors 125 = 0 ∧
    ((inode_write_at freshFS bufC 1 127488).2).sectors 124 = 1 ∧
    ((inode_write_at freshFS bufC 1 127488).2).ptrs 1 1 = 2 ∧
    ((inode_write_at freshFS bufC 1 127488).2).ptrs 2 0 = 3 := by
  refine ⟨?_, by decide, by decide, by decide, by decide, by decide⟩
  intro fs pos
  unfold byte_to_sector
  dsimp only
  split
  · rw [bdis_sectors_eq, bdis_sectors_eq, bti_sectors_high]
    omega
  · exact bti_sectors_high fs _ _ (by omega)

/-! ## Claim C2: sector release at final close of a removed inode -/

/-- Claim C2 (code_bug evaluation).  After writing one byte at offset
`127488` into a fresh file, the byte lives in data sector 3, reached as
inner slot 0 of sector 2, which is outer slot 1 of the tree root sector 1
stored at `sectors[124]`.  The removed-last-close path of `inode_close`
releases the non-zero direct pointers, the 125 slot values of the sector at
`sectors[124]` (unconditionally, so it also releases sector 0, the free-map
sector) and `sectors[124]` itself — but never walks to the second level, so
the data sector 3 that the inode owns is leaked, refuting "every sector the
inode owned is released". -/
theorem c2_close_leaks_level2_data_sector :
    (inode_write_at freshFS bufC 1 127488).1 = 1 ∧
    resolveSector (inode_write_at freshFS bufC 1 127488).2 127488 = some 3 ∧
    ((inode_write_at freshFS bufC 1 127488).2).data 3 0 = bufC 0 ∧
    ¬ (3 ∈ close_released_sectors (inode_write_at freshFS bufC 1 127488).2) ∧
    2 ∈ close_released_sectors (inode_write_at freshFS bufC 1 127488).2 ∧
    1 ∈ close_released_sectors (inode_write_at freshFS bufC 1 127488).2 ∧
    0 ∈ close_released_sectors (inode_write_at freshFS bufC 1 127488).2 := by
  exact ⟨by decide, by decide, by decide, by decide, by decide, by decide, by decide⟩

/-! ## Claim C3: reads and allocation -/

/-- Claim C3 counterexample.  A file created with `inode_create (sector,
512, false)` has length 512 and no allocated sectors.  Reading a single byte
at offset 0 passes the length guard and calls `byte_to_sector`, which
allocates: afterwards `sectors[0]` has become 1 and the free-map counter has
advanced, so "inode_read_at never allocates a sector: the free map and the
inode's sector-pointer array are unchanged by any read" is false on the
code.  (The read returns the zero byte of the freshly zeroed sector.) -/
theorem c3_read_allocates_counterexample :
    (inode_create 512).sectors 0 = 0 ∧
    (inode_create 512).next_free = 1 ∧
    (inode_read_at (inode_create 512) 1 0).1 = [0] ∧
    ((inode_read_at (inode_create 512) 1 0).2).sectors 0 = 1 ∧
    ((inode_read_at (inode_create 512) 1 0).2).next_free = 2 := by
  exact ⟨by decide, by decide, by decide, by decide, by decide⟩

/-- `byte_to_indirect_sector` changes neither the stored length nor the deny
counter. -/
theorem bti_len_deny (fs : FsState) (idx : Nat) :
    ((byte_to_indirect_sector fs idx).2).length = fs.length ∧
    ((byte_to_indirect_sector fs idx).2).deny_write_cnt = fs.deny_write_cnt := by
  unfold byte_to_indirect_sector zeroSector
  dsimp only
  split <;> split <;> exact ⟨rfl, rfl⟩

/-- `byte_to_double_indirect_sec` changes neither the stored length nor the
deny counter. -/
theorem bdis_len_deny (fs : FsState) (p i : Nat) :
    ((byte_to_double_indirect_sec fs p i).2).length = fs.length ∧
    ((byte_to_double_indirect_sec fs p i).2).deny_write_cnt = fs.deny_write_cnt := by
  unfold byte_to_double_indirect_sec zeroSector
  dsimp only
  split <;> exact ⟨rfl, rfl⟩

/-- `byte_to_sector` changes neither the stored length nor the deny
counter. -/
theorem bts_len_deny (fs : FsState) (pos : Nat) :
    ((byte_to_sector fs pos).2).length = fs.length ∧
    ((byte_to_sector fs pos).2).deny_write_cnt = fs.deny_write_cnt := by
  unfold byte_to_sector
  dsimp only
  split
  · constructor
    · rw [(bdis_len_deny _ _ _).1, (bdis_len_deny _ _ _).1, (bti_len_deny _ _).1]
    · rw [(bdis_len_deny _ _ _).2, (bdis_len_deny _ _ _).2, (bti_len_deny _ _).2]
  · exact bti_len_deny fs _

/-- The read loop changes neither the stored length nor the deny counter. -/
theorem read_loop_len_deny (fuel : Nat) : ∀ fs size offset,
    ((read_loop fuel fs size offset).2).length = fs.length ∧
    ((read_loop fuel fs size offset).2).deny_write_cnt = fs.deny_write_cnt := by
  induction fuel with
  | zero => intro fs size offset; exact ⟨rfl, rfl⟩
  | succ n ih =>
    intro fs size offset
    unfold read_loop
    dsimp only
    split
    · exact ⟨rfl, rfl⟩
    · split
      · exact bts_len_deny fs offset
      · constructor
        · rw [(ih _ _ _).1, (bts_len_deny _ _).1]
        · rw [(ih _ _ _).2, (bts_len_deny _ _).2]

/-- `start_read_ahead` changes neither the stored length nor the deny
counter. -/
theorem start_read_ahead_len_deny (fs : FsState) (offset : Nat) :
    (start_read_ahead fs offset).length = fs.length ∧
    (start_read_ahead fs offset).deny_write_cnt = fs.deny_write_cnt := by
  unfold start_read_ahead
  dsimp only
  split
  · exact bts_len_deny fs _
  · exact ⟨rfl, rfl⟩

/-- Claim C3 (amended).  `inode_read_at` allocates nothing only by virtue of
its end-of-file guard: a read at or past the stored length returns no bytes
and leaves the state completely unchanged, and no read ever changes the
stored length or the deny counter.  (Within the length, a read of a hole
does allocate — see the counterexample —, because `byte_to_sector` is the
same allocate-on-demand walker on the read path as on the write path.) -/
theorem c3_read_beyond_length_is_pure :
    (∀ fs size offset, fs.length ≤ offset → inode_read_at fs size offset = ([], fs)) ∧
    (∀ fs size offset, ((inode_read_at fs size offset).2).length = fs.length ∧
        ((inode_read_at fs size offset).2).deny_write_cnt = fs.deny_write_cnt) := by
  constructor
  · intro fs size offset h
    unfold inode_read_at
    rw [if_pos h]
  · intro fs size offset
    unfold inode_read_at
    dsimp only
    split
    · exact ⟨rfl, rfl⟩
    · constructor
      · rw [(start_read_ahead_len_deny _ _).1, (read_loop_len_deny _ _ _ _).1]
      · rw [(start_read_ahead_len_deny _ _).2, (read_loop_len_deny _ _ _ _).2]

/-- Witness for C3's amended theorem at a concrete input. -/
theorem c3_witness :
    freshFS.length ≤ 0 ∧ inode_read_at freshFS 5 0 = ([], freshFS) :=
  ⟨by decide, c3_read_beyond_length_is_pure.1 freshFS 5 0 (by decide)⟩

/-! ## Claim C5: the hard size ceiling -/

/-- The write loop copies at most `MAX_FILE_SIZE - offset` bytes beyond what
was already written. -/
theorem write_loop_le (fuel : Nat) : ∀ fs buf written size offset,
    (write_loop fuel fs buf written size offset).1
      ≤ written + (MAX_FILE_SIZE - offset) := by
  induction fuel with
  | zero => intro fs buf written size offset; exact Nat.le_add_right _ _
  | succ n ih =>
    intro fs buf written size offset
    unfold write_loop
    dsimp only
    split
    · exact Nat.le_add_right _ _
    · split
      · exact Nat.le_add_right _ _
      next hc =>
        refine le_trans (ih _ _ _ _ _) ?_
        omega

/-- The value `inode_write_at` returns is the value its loop returns. -/
theorem inode_write_at_fst (fs : FsState) (buf : Nat → Nat) (size offset : Nat) :
    (inode_write_at fs buf size offset).1
      = if fs.deny_write_cnt ≠ 0 then 0 else (write_loop size fs buf 0 size offset).1 := by
  unfold inode_write_at
  dsimp only
  split
  · rfl
  · split <;> rfl

/-- Claim C5 (confirmed).  `inode_write_at` never reports a write past the
hard size ceiling: at any offset at or past `MAX_FILE_SIZE` it returns 0, at
any offset it returns at most `MAX_FILE_SIZE - offset` bytes, and on the
spec's concrete scenario a write of 100 bytes at `MAX_FILE_SIZE - 50` into a
fresh file returns 50, the length becomes exactly `MAX_FILE_SIZE`, and a
subsequent write of 1 byte at `MAX_FILE_SIZE` returns 0. -/
theorem c5_write_respects_size_ceiling :
    (∀ fs buf size offset, MAX_FILE_SIZE ≤ offset →
        (inode_write_at fs buf size offset).1 = 0) ∧
    (∀ fs buf size offset,
        (inode_write_at fs buf size offset).1 ≤ MAX_FILE_SIZE - offset) ∧
    (inode_write_at freshFS bufC 100 (MAX_FILE_SIZE - 50)).1 = 50 ∧
    ((inode_write_at freshFS bufC 100 (MAX_FILE_SIZE - 50)).2).length = MAX_FILE_SIZE ∧
    (inode_write_at ((inode_write_at freshFS bufC 100 (MAX_FILE_SIZE - 50)).2)
        bufC 1 MAX_FILE_SIZE).1 = 0 := by
  have hle : ∀ fs buf size offset,
      (inode_write_at fs buf size offset).1 ≤ MAX_FILE_SIZE - offset := by
    intro fs buf size offset
    rw [inode_write_at_fst]
    split
    · exact Nat.zero_le _
    · have := write_loop_le size fs buf 0 size offset
      omega
  refine ⟨?_, hle, by decide, by decide, by decide⟩
  intro fs buf size offset h
  have := hle fs buf size offset
  omega

/-- Witness for C5 at a concrete input. -/
theorem c5_witness :
    MAX_FILE_SIZE ≤ MAX_FILE_SIZE ∧
    (inode_write_at freshFS bufC 3 MAX_FILE_SIZE).1 = 0 :=
  ⟨le_refl _, c5_write_respects_size_ceiling.1 freshFS bufC 3 MAX_FILE_SIZE (le_refl _)⟩

/-! ## Claim C4: write/read round trip — infrastructure

The round-trip proof tracks a well-formedness invariant `WF` over the inode
state: every sector pointer stored anywhere in the tree is below the free-map
counter (so freshly allocated sectors are genuinely fresh), the level-1 slots
of the tree root are injective and never point back at the root, and distinct
file blocks resolve to distinct data sectors. -/

/-- Two offsets in the indirect range with equal block index have equal
outer and inner slots. -/
theorem slots_of_block (p q : Nat) (hb : p / BLOCK_SECTOR_SIZE = q / BLOCK_SECTOR_SIZE)
    (hp : DIRECT_BLOCKS ≤ p / BLOCK_SECTOR_SIZE) :
    outerSlot p = outerSlot q ∧ innerSlot p = innerSlot q := by
  simp only [outerSlot, innerSlot, BLOCK_SECTOR_SIZE, DIRECT_BLOCKS, BLOCKS_PER_SECTOR] at *
  omega

/-- Two offsets in the indirect range with equal outer and inner slots have
equal block index. -/
theorem block_of_slots (p q : Nat) (hp : DIRECT_BLOCKS ≤ p / BLOCK_SECTOR_SIZE)
    (hq : DIRECT_BLOCKS ≤ q / BLOCK_SECTOR_SIZE)
    (ho : outerSlot p = outerSlot q) (hi : innerSlot p = innerSlot q) :
    p / BLOCK_SECTOR_SIZE = q / BLOCK_SECTOR_SIZE := by
  simp only [outerSlot, innerSlot, BLOCK_SECTOR_SIZE, DIRECT_BLOCKS, BLOCKS_PER_SECTOR] at *
  omega

/-- `resolveSector` on a direct-range offset. -/
theorem resolveSector_direct (fs : FsState) (p : Nat)
    (h : p / BLOCK_SECTOR_SIZE < DIRECT_BLOCKS) :
    resolveSector fs p =
      if fs.sectors (p / BLOCK_SECTOR_SIZE) = 0 then none
      else some (fs.sectors (p / BLOCK_SECTOR_SIZE)) := by
  unfold resolveSector
  dsimp only
  rw [if_pos h]

/-- `resolveSector` on an indirect-range offset. -/
theorem resolveSector_indirect (fs : FsState) (p : Nat)
    (h : ¬ p / BLOCK_SECTOR_SIZE < DIRECT_BLOCKS) :
    resolveSector fs p =
      (if fs.sectors DIRECT_BLOCKS = 0 then none
       else if fs.ptrs (fs.sectors DIRECT_BLOCKS) (outerSlot p) = 0 then none
       else if fs.ptrs (fs.ptrs (fs.sectors DIRECT_BLOCKS) (outerSlot p)) (innerSlot p) = 0
         then none
         else some (fs.ptrs (fs.ptrs (fs.sectors DIRECT_BLOCKS) (outerSlot p)) (innerSlot p))) := by
  unfold resolveSector
  dsimp only
  rw [if_neg h]

/-- `resolveSector` depends only on the block index of the offset. -/
theorem resolve_block_eq (fs : FsState) (p q : Nat)
    (hb : p / BLOCK_SECTOR_SIZE = q / BLOCK_SECTOR_SIZE) :
    resolveSector fs p = resolveSector fs q := by
  by_cases hd : p / BLOCK_SECTOR_SIZE < DIRECT_BLOCKS
  · rw [resolveSector_direct fs p hd, resolveSector_direct fs q (hb ▸ hd), hb]
  · obtain ⟨ho, hi⟩ := slots_of_block p q hb (Nat.le_of_not_lt hd)
    rw [resolveSector_indirect fs p hd, resolveSector_indirect fs q (hb ▸ hd), ho, hi]

/-- Application form of `setArr`. -/
theorem setArr_apply (f : Nat → Nat) (i v j : Nat) :
    setArr f i v j = if j = i then v else f j := rfl

/-- Application form of `setPtr`. -/
theorem setPtr_apply (g : Nat → Nat → Nat) (p i v q j : Nat) :
    setPtr g p i v q j = if q = p ∧ j = i then v else g q j := by
  unfold setPtr
  by_cases hq : q = p
  · subst hq
    rw [if_pos rfl, setArr_apply]
    by_cases hj : j = i
    · rw [if_pos hj, if_pos ⟨rfl, hj⟩]
    · rw [if_neg hj, if_neg (by intro hc; exact hj hc.2)]
  · rw [if_neg hq, if_neg (by intro hc; exact hq hc.1)]

/-- Application form of `zeroSector` on the pointer view. -/
theorem zeroSector_ptrs (fs : FsState) (s q j : Nat) :
    (zeroSector fs s).ptrs q j = if q = s then 0 else fs.ptrs q j := by
  unfold zeroSector
  dsimp only
  by_cases hq : q = s
  · rw [if_pos hq, if_pos hq]
  · rw [if_neg hq, if_neg hq]

/-- Application form of `zeroSector` on the data view. -/
theorem zeroSector_data (fs : FsState) (s q o : Nat) :
    (zeroSector fs s).data q o = if q = s then 0 else fs.data q o := rfl

/-- The well-formedness invariant carried through the write loop. -/
structure WF (fs : FsState) : Prop where
  posFree : 0 < fs.next_free
  arrLt : ∀ i, fs.sectors i < fs.next_free
  l1Lt : ∀ o, fs.ptrs (fs.sectors DIRECT_BLOCKS) o < fs.next_free
  l2Lt : ∀ o i, fs.ptrs (fs.ptrs (fs.sectors DIRECT_BLOCKS) o) i < fs.next_free
  l1NeRoot : ∀ o, fs.ptrs (fs.sectors DIRECT_BLOCKS) o ≠ 0 →
      fs.ptrs (fs.sectors DIRECT_BLOCKS) o ≠ fs.sectors DIRECT_BLOCKS
  l1Inj : ∀ o1 o2, fs.ptrs (fs.sectors DIRECT_BLOCKS) o1 ≠ 0 →
      fs.ptrs (fs.sectors DIRECT_BLOCKS) o1 = fs.ptrs (fs.sectors DIRECT_BLOCKS) o2 →
      o1 = o2
  resInj : ∀ p q tp tq, resolveSector fs p = some tp → resolveSector fs q = some tq →
      tp = tq → p / BLOCK_SECTOR_SIZE = q / BLOCK_SECTOR_SIZE

/-- In a well-formed state every resolved data sector is non-zero and below
the free-map counter. -/
theorem resolve_lt (fs : FsState) (hwf : WF fs) (p t : Nat)
    (hr : resolveSector fs p = some t) : t < fs.next_free ∧ t ≠ 0 := by
  by_cases hd : p / BLOCK_SECTOR_SIZE < DIRECT_BLOCKS
  · rw [resolveSector_direct fs p hd] at hr
    split at hr
    · cases hr
    next hz =>
      rw [Option.some_inj] at hr
      subst hr
      exact ⟨hwf.arrLt _, hz⟩
  · rw [resolveSector_indirect fs p hd] at hr
    split at hr
    · cases hr
    · split at hr
      · cases hr
      · split at hr
        · cases hr
        next hz =>
          rw [Option.some_inj] at hr
          subst hr
          exact ⟨hwf.l2Lt _ _, hz⟩

/-- What one walker step (and, by composition, one whole
`byte_to_sector` / loop iteration) preserves: resolved blocks stay resolved
to the same sector, data below the old free-map counter is untouched, the
counter grows, length and deny counter are unchanged. -/
structure Step (fs fs2 : FsState) : Prop where
  res : ∀ q t, resolveSector fs q = some t → resolveSector fs2 q = some t
  dataPres : ∀ t o, t < fs.next_free → fs2.data t o = fs.data t o
  mono : fs.next_free ≤ fs2.next_free
  lenEq : fs2.length = fs.length
  denyEq : fs2.deny_write_cnt = fs.deny_write_cnt

theorem Step.same (fs : FsState) : Step fs fs :=
  ⟨fun _ _ h => h, fun _ _ _ => rfl, le_refl _, rfl, rfl⟩

theorem Step.comp {fs1 fs2 fs3 : FsState} (h1 : Step fs1 fs2) (h2 : Step fs2 fs3) :
    Step fs1 fs3 := by
  refine ⟨fun q t h => h2.res q t (h1.res q t h), ?_, le_trans h1.mono h2.mono,
    h2.lenEq.trans h1.lenEq, h2.denyEq.trans h1.denyEq⟩
  intro t o ht
  rw [h2.dataPres t o (lt_of_lt_of_le ht h1.mono), h1.dataPres t o ht]

/-- Specification of one `byte_to_indirect_sector` call from a well-formed
state: the result is the (possibly freshly allocated) non-zero sector now
stored at the clamped record index, the state stays well-formed, and the
call is a `Step`. -/
theorem bti_spec (fs : FsState) (idx s : Nat) (fs2 : FsState) (hwf : WF fs)
    (hr : byte_to_indirect_sector fs idx = (s, fs2)) :
    WF fs2 ∧ Step fs fs2 ∧
    fs2.sectors (if DIRECT_BLOCKS ≤ idx then DIRECT_BLOCKS else idx) = s ∧ s ≠ 0 := by
  unfold byte_to_indirect_sector at hr
  dsimp only at hr
  by_cases hge : DIRECT_BLOCKS ≤ idx
  · rw [if_pos hge] at hr ⊢
    by_cases h0 : fs.sectors DIRECT_BLOCKS = 0
    · -- allocate the tree root
      rw [if_pos h0] at hr
      injection hr with h1 h2
      subst h1
      subst h2
      have hnf0 : fs.next_free ≠ 0 := Nat.pos_iff_ne_zero.1 hwf.posFree
      set F := zeroSector
        { fs with next_free := fs.next_free + 1,
                  sectors := setArr fs.sectors DIRECT_BLOCKS fs.next_free }
        fs.next_free with hF
      have hsec : ∀ j, F.sectors j = if j = DIRECT_BLOCKS then fs.next_free else fs.sectors j :=
        fun j => rfl
      have hptr : ∀ q j, F.ptrs q j = if q = fs.next_free then 0 else fs.ptrs q j := by
        intro q j
        rw [hF, zeroSector_ptrs]
      have hdat : ∀ q o, F.data q o = if q = fs.next_free then 0 else fs.data q o := by
        intro q o
        rw [hF, zeroSector_data]
      have hnf : F.next_free = fs.next_free + 1 := rfl
      have hFroot : F.sectors DIRECT_BLOCKS = fs.next_free := by
        rw [hsec, if_pos rfl]
      have hresF : ∀ q, resolveSector F q =
          if q / BLOCK_SECTOR_SIZE < DIRECT_BLOCKS then resolveSector fs q else none := by
        intro q
        by_cases hd : q / BLOCK_SECTOR_SIZE < DIRECT_BLOCKS
        · rw [if_pos hd, resolveSector_direct F q hd, resolveSector_direct fs q hd, hsec,
            if_neg (by omega : ¬ q / BLOCK_SECTOR_SIZE = DIRECT_BLOCKS)]
        · rw [if_neg hd, resolveSector_indirect F q hd, hFroot, if_neg hnf0,
            hptr fs.next_free (outerSlot q), if_pos rfl, if_pos rfl]
      refine ⟨?_, ?_, by rw [hFroot], hnf0⟩
      · refine ⟨by omega, ?_, ?_, ?_, ?_, ?_, ?_⟩
        · intro j
          rw [hsec]
          have := hwf.arrLt j
          split <;> omega
        · intro o
          rw [hFroot, hptr, if_pos rfl]
          omega
        · intro o i
          rw [hFroot, hptr fs.next_free o, if_pos rfl, hptr 0 i,
            if_neg (by omega : ¬ (0 : Nat) = fs.next_free), hnf]
          have h2 := hwf.l1Lt i
          rw [h0] at h2
          omega
        · intro o hne
          exfalso
          apply hne
          rw [hFroot, hptr, if_pos rfl]
        · intro o1 o2 hne
          exfalso
          apply hne
          rw [hFroot, hptr, if_pos rfl]
        · intro p q tp tq hp hq heq
          rw [hresF] at hp hq
          split at hp
          · split at hq
            · exact hwf.resInj p q tp tq hp hq heq
            · cases hq
          · cases hp
      · refine ⟨?_, ?_, by omega, rfl, rfl⟩
        · intro q t hq
          rw [hresF]
          by_cases hd : q / BLOCK_SECTOR_SIZE < DIRECT_BLOCKS
          · rw [if_pos hd]
            exact hq
          · rw [resolveSector_indirect fs q hd, if_pos h0] at hq
            cases hq
        · intro t o ht
          rw [hdat, if_neg (by omega : ¬ t = fs.next_free)]
    · -- root already present
      rw [if_neg h0] at hr
      injection hr with h1 h2
      subst h1
      subst h2
      exact ⟨hwf, Step.same fs, rfl, h0⟩
  · rw [if_neg hge] at hr ⊢
    have hlt : idx < DIRECT_BLOCKS := Nat.lt_of_not_le hge
    by_cases h0 : fs.sectors idx = 0
    · -- allocate a direct data sector
      rw [if_pos h0] at hr
      injection hr with h1 h2
      subst h1
      subst h2
      have hnf0 : fs.next_free ≠ 0 := Nat.pos_iff_ne_zero.1 hwf.posFree
      set F := zeroSector
        { fs with next_free := fs.next_free + 1,
                  sectors := setArr fs.sectors idx fs.next_free }
        fs.next_free with hF
      have hsec : ∀ j, F.sectors j = if j = idx then fs.next_free else fs.sectors j :=
        fun j => rfl
      have hptr : ∀ q j, F.ptrs q j = if q = fs.next_free then 0 else fs.ptrs q j := by
        intro q j
        rw [hF, zeroSector_ptrs]
      have hdat : ∀ q o, F.data q o = if q = fs.next_free then 0 else fs.data q o := by
        intro q o
        rw [hF, zeroSector_data]
      have hnf : F.next_free = fs.next_free + 1 := rfl
      have hrootlt := hwf.arrLt DIRECT_BLOCKS
      have hroot124 : F.sectors DIRECT_BLOCKS = fs.sectors DIRECT_BLOCKS := by
        rw [hsec, if_neg (by omega : ¬ DIRECT_BLOCKS = idx)]
      have hl1 : ∀ o, F.ptrs (fs.sectors DIRECT_BLOCKS) o
          = fs.ptrs (fs.sectors DIRECT_BLOCKS) o := by
        intro o
        rw [hptr, if_neg (by omega : ¬ fs.sectors DIRECT_BLOCKS = fs.next_free)]
      have hl2 : ∀ o i, F.ptrs (fs.ptrs (fs.sectors DIRECT_BLOCKS) o) i
          = fs.ptrs (fs.ptrs (fs.sectors DIRECT_BLOCKS) o) i := by
        intro o i
        have := hwf.l1Lt o
        rw [hptr, if_neg (by omega : ¬ fs.ptrs (fs.sectors DIRECT_BLOCKS) o = fs.next_free)]
      have hresF : ∀ q, resolveSector F q =
          if q / BLOCK_SECTOR_SIZE = idx then some fs.next_free else resolveSector fs q := by
        intro q
        by_cases hd : q / BLOCK_SECTOR_SIZE < DIRECT_BLOCKS
        · rw [resolveSector_direct F q hd, resolveSector_direct fs q hd, hsec]
          by_cases hqi : q / BLOCK_SECTOR_SIZE = idx
          · rw [if_pos hqi, if_pos hqi, if_neg hnf0]
          · rw [if_neg hqi, if_neg hqi]
        · rw [if_neg (by omega : ¬ q / BLOCK_SECTOR_SIZE = idx),
            resolveSector_indirect F q hd, resolveSector_indirect fs q hd, hroot124,
            hl1 (outerSlot q), hl2 (outerSlot q) (innerSlot q)]
      refine ⟨?_, ?_, by rw [hsec, if_pos rfl], hnf0⟩
      · refine ⟨by omega, ?_, ?_, ?_, ?_, ?_, ?_⟩
        · intro j
          rw [hsec]
          have := hwf.arrLt j
          split <;> omega
        · intro o
          rw [hroot124, hl1]
          have := hwf.l1Lt o
          omega
        · intro o i
          rw [hroot124, hl1, hl2]
          have := hwf.l2Lt o i
          omega
        · intro o hne
          rw [hroot124, hl1] at hne ⊢
          exact hwf.l1NeRoot o hne
        · intro o1 o2 hne heq
          rw [hroot124, hl1] at hne
          rw [hroot124, hl1, hl1] at heq
          exact hwf.l1Inj o1 o2 hne heq
        · intro p q tp tq hp hq heq
          rw [hresF] at hp hq
          split at hp
          · split at hq
            · rw [Option.some_inj] at hp hq
              omega
            next hqne =>
              rw [Option.some_inj] at hp
              have := (resolve_lt fs hwf q tq hq).1
              omega
          next hpne =>
            split at hq
            · rw [Option.some_inj] at hq
              have := (resolve_lt fs hwf p tp hp).1
              omega
            · exact hwf.resInj p q tp tq hp hq heq
      · refine ⟨?_, ?_, by omega, rfl, rfl⟩
        · intro q t hq
          rw [hresF]
          by_cases hqi : q / BLOCK_SECTOR_SIZE = idx
          · rw [resolveSector_direct fs q (by omega), hqi, if_pos h0] at hq
            cases hq
          · rw [if_neg hqi]
            exact hq
        · intro t o ht
          rw [hdat, if_neg (by omega : ¬ t = fs.next_free)]
    · rw [if_neg h0] at hr
      injection hr with h1 h2
      subst h1
      subst h2
      exact ⟨hwf, Step.same fs, rfl, h0⟩

/-- Specification of a `byte_to_double_indirect_sec` call whose parent is
the tree root `sectors[DIRECT_BLOCKS]`: the result is the non-zero sector
now stored in outer slot `o` of the root, the record array is untouched, the
state stays well-formed, and the call is a `Step`. -/
theorem bdis_root_spec (fs : FsState) (root o s : Nat) (fs2 : FsState) (hwf : WF fs)
    (hrootdef : fs.sectors DIRECT_BLOCKS = root) (hrootne : root ≠ 0)
    (hr : byte_to_double_indirect_sec fs root o = (s, fs2)) :
    WF fs2 ∧ Step fs fs2 ∧ fs2.sectors = fs.sectors ∧
    fs2.sectors DIRECT_BLOCKS = root ∧ fs2.ptrs root o = s ∧ s ≠ 0 := by
  subst hrootdef
  unfold byte_to_double_indirect_sec at hr
  dsimp only at hr
  by_cases h0 : fs.ptrs (fs.sectors DIRECT_BLOCKS) o = 0
  · rw [if_pos h0] at hr
    injection hr with h1 h2
    subst h1
    subst h2
    have hnf0 : fs.next_free ≠ 0 := Nat.pos_iff_ne_zero.1 hwf.posFree
    have hrootlt := hwf.arrLt DIRECT_BLOCKS
    set F := zeroSector
      { fs with next_free := fs.next_free + 1,
                ptrs := setPtr fs.ptrs (fs.sectors DIRECT_BLOCKS) o fs.next_free }
      fs.next_free with hF
    have hsecF : F.sectors = fs.sectors := rfl
    have hnf : F.next_free = fs.next_free + 1 := rfl
    have hdat : ∀ q o2, F.data q o2 = if q = fs.next_free then 0 else fs.data q o2 := by
      intro q o2
      rw [hF, zeroSector_data]
    have hptr : ∀ q j, F.ptrs q j =
        if q = fs.next_free then 0
        else if q = fs.sectors DIRECT_BLOCKS ∧ j = o then fs.next_free
        else fs.ptrs q j := by
      intro q j
      rw [hF, zeroSector_ptrs]
      dsimp only
      rw [setPtr_apply]
    have hl1F : ∀ o2, F.ptrs (fs.sectors DIRECT_BLOCKS) o2 =
        if o2 = o then fs.next_free else fs.ptrs (fs.sectors DIRECT_BLOCKS) o2 := by
      intro o2
      rw [hptr, if_neg (by omega : ¬ fs.sectors DIRECT_BLOCKS = fs.next_free)]
      by_cases ho2 : o2 = o
      · rw [if_pos ⟨rfl, ho2⟩, if_pos ho2]
      · rw [if_neg (by intro hc; exact ho2 hc.2), if_neg ho2]
    have hfresh : ∀ j, F.ptrs fs.next_free j = 0 := by
      intro j
      rw [hptr, if_pos rfl]
    have hold : ∀ v, v ≠ fs.next_free → v ≠ fs.sectors DIRECT_BLOCKS →
        ∀ j, F.ptrs v j = fs.ptrs v j := by
      intro v h1 h2 j
      rw [hptr, if_neg h1, if_neg (by intro hc; exact h2 hc.1)]
    have hresF : ∀ q, resolveSector F q = resolveSector fs q := by
      intro q
      by_cases hd : q / BLOCK_SECTOR_SIZE < DIRECT_BLOCKS
      · rw [resolveSector_direct F q hd, resolveSector_direct fs q hd, hsecF]
      · rw [resolveSector_indirect F q hd, resolveSector_indirect fs q hd, hsecF,
          if_neg hrootne, if_neg hrootne, hl1F (outerSlot q)]
        by_cases hout : outerSlot q = o
        · rw [if_pos hout, if_neg hnf0, hfresh (innerSlot q), if_pos rfl, hout, h0,
            if_pos rfl]
        · rw [if_neg hout]
          by_cases hs2q : fs.ptrs (fs.sectors DIRECT_BLOCKS) (outerSlot q) = 0
          · rw [hs2q, if_pos rfl, if_pos rfl]
          · have hlt := hwf.l1Lt (outerSlot q)
            have hner := hwf.l1NeRoot (outerSlot q) hs2q
            rw [hold (fs.ptrs (fs.sectors DIRECT_BLOCKS) (outerSlot q)) (by omega) hner
                (innerSlot q)]
    refine ⟨?_, ?_, hsecF, rfl, by rw [hl1F, if_pos rfl], hnf0⟩
    · refine ⟨by omega, ?_, ?_, ?_, ?_, ?_, ?_⟩
      · intro j
        rw [hsecF]
        have := hwf.arrLt j
        omega
      · intro o2
        rw [hsecF, hl1F]
        have := hwf.l1Lt o2
        split <;> omega
      · intro o2 i
        rw [hsecF, hl1F]
        by_cases ho2 : o2 = o
        · rw [if_pos ho2, hfresh i]
          omega
        · rw [if_neg ho2]
          by_cases hs2q : fs.ptrs (fs.sectors DIRECT_BLOCKS) o2 = 0
          · rw [hs2q, hold 0 (by omega) (by intro hc; exact hrootne hc.symm) i]
            have := hwf.l2Lt o2 i
            rw [hs2q] at this
            omega
          · have hlt := hwf.l1Lt o2
            have hner := hwf.l1NeRoot o2 hs2q
            rw [hold (fs.ptrs (fs.sectors DIRECT_BLOCKS) o2) (by omega) hner i]
            have := hwf.l2Lt o2 i
            omega
      · intro o2 hne
        rw [hsecF, hl1F] at hne ⊢
        by_cases ho2 : o2 = o
        · rw [if_pos ho2]
          omega
        · rw [if_neg ho2] at hne ⊢
          exact hwf.l1NeRoot o2 hne
      · intro o1 o2 hne heq
        rw [hsecF, hl1F, hl1F] at heq
        rw [hsecF, hl1F] at hne
        by_cases h1 : o1 = o
        · by_cases h2 : o2 = o
          · omega
          · rw [if_pos h1, if_neg h2] at heq
            have := hwf.l1Lt o2
            omega
        · by_cases h2 : o2 = o
          · rw [if_neg h1, if_pos h2] at heq
            rw [if_neg h1] at hne
            have := hwf.l1Lt o1
            omega
          · rw [if_neg h1, if_neg h2] at heq
            rw [if_neg h1] at hne
            exact hwf.l1Inj o1 o2 hne heq
      · intro p q tp tq hp hq heq
        rw [hresF] at hp hq
        exact hwf.resInj p q tp tq hp hq heq
    · refine ⟨?_, ?_, by omega, rfl, rfl⟩
      · intro q t hq
        rw [hresF]
        exact hq
      · intro t o2 ht
        rw [hdat, if_neg (by omega : ¬ t = fs.next_free)]
  · rw [if_neg h0] at hr
    injection hr with h1 h2
    subst h1
    subst h2
    exact ⟨hwf, Step.same fs, rfl, rfl, rfl, h0⟩

/-- Specification of a `byte_to_double_indirect_sec` call whose parent is
the level-1 sector stored in outer slot `o` of the tree root: the result is
the non-zero sector now stored in slot `i` of that parent, the record array
and the level-1 slots are untouched, the state stays well-formed, and the
call is a `Step`. -/
theorem bdis_l1_spec (fs : FsState) (o i s2 s : Nat) (fs2 : FsState) (hwf : WF fs)
    (hrootne : fs.sectors DIRECT_BLOCKS ≠ 0)
    (hs2def : fs.ptrs (fs.sectors DIRECT_BLOCKS) o = s2) (hs2ne : s2 ≠ 0)
    (hr : byte_to_double_indirect_sec fs s2 i = (s, fs2)) :
    WF fs2 ∧ Step fs fs2 ∧ fs2.sectors = fs.sectors ∧
    fs2.ptrs (fs.sectors DIRECT_BLOCKS) o = s2 ∧
    fs2.ptrs s2 i = s ∧ s ≠ 0 := by
  subst hs2def
  unfold byte_to_double_indirect_sec at hr
  dsimp only at hr
  have hs2lt : fs.ptrs (fs.sectors DIRECT_BLOCKS) o < fs.next_free := hwf.l1Lt o
  have hs2neroot : fs.ptrs (fs.sectors DIRECT_BLOCKS) o ≠ fs.sectors DIRECT_BLOCKS :=
    hwf.l1NeRoot o hs2ne
  by_cases h0 : fs.ptrs (fs.ptrs (fs.sectors DIRECT_BLOCKS) o) i = 0
  · rw [if_pos h0] at hr
    injection hr with h1 h2
    subst h1
    subst h2
    have hnf0 : fs.next_free ≠ 0 := Nat.pos_iff_ne_zero.1 hwf.posFree
    have hrootlt := hwf.arrLt DIRECT_BLOCKS
    set F := zeroSector
      { fs with next_free := fs.next_free + 1,
                ptrs := setPtr fs.ptrs (fs.ptrs (fs.sectors DIRECT_BLOCKS) o) i fs.next_free }
      fs.next_free with hF
    have hsecF : F.sectors = fs.sectors := rfl
    have hnf : F.next_free = fs.next_free + 1 := rfl
    have hdat : ∀ q o2, F.data q o2 = if q = fs.next_free then 0 else fs.data q o2 := by
      intro q o2
      rw [hF, zeroSector_data]
    have hptr : ∀ q j, F.ptrs q j =
        if q = fs.next_free then 0
        else if q = fs.ptrs (fs.sectors DIRECT_BLOCKS) o ∧ j = i then fs.next_free
        else fs.ptrs q j := by
      intro q j
      rw [hF, zeroSector_ptrs]
      dsimp only
      rw [setPtr_apply]
    have hl1F : ∀ o2, F.ptrs (fs.sectors DIRECT_BLOCKS) o2
        = fs.ptrs (fs.sectors DIRECT_BLOCKS) o2 := by
      intro o2
      rw [hptr, if_neg (by omega : ¬ fs.sectors DIRECT_BLOCKS = fs.next_free),
        if_neg (by intro hc; exact hs2neroot hc.1.symm)]
    have hnew : F.ptrs (fs.ptrs (fs.sectors DIRECT_BLOCKS) o) i = fs.next_free := by
      rw [hptr, if_neg (by omega : ¬ fs.ptrs (fs.sectors DIRECT_BLOCKS) o = fs.next_free),
        if_pos ⟨rfl, rfl⟩]
    have hold : ∀ v j, v ≠ fs.next_free →
        ¬ (v = fs.ptrs (fs.sectors DIRECT_BLOCKS) o ∧ j = i) →
        F.ptrs v j = fs.ptrs v j := by
      intro v j h1 h2
      rw [hptr, if_neg h1, if_neg h2]
    have hresF : ∀ q, resolveSector F q =
        if ¬ q / BLOCK_SECTOR_SIZE < DIRECT_BLOCKS ∧ outerSlot q = o ∧ innerSlot q = i
        then some fs.next_free
        else resolveSector fs q := by
      intro q
      by_cases hd : q / BLOCK_SECTOR_SIZE < DIRECT_BLOCKS
      · rw [if_neg (by intro hc; exact hc.1 hd), resolveSector_direct F q hd,
          resolveSector_direct fs q hd, hsecF]
      · by_cases hcnd : outerSlot q = o ∧ innerSlot q = i
        · rw [if_pos ⟨hd, hcnd.1, hcnd.2⟩, resolveSector_indirect F q hd, hsecF,
            if_neg hrootne, hcnd.1, hcnd.2, hl1F o, if_neg hs2ne, hnew, if_neg hnf0]
        · rw [if_neg (by intro hc; exact hcnd ⟨hc.2.1, hc.2.2⟩),
            resolveSector_indirect F q hd, resolveSector_indirect fs q hd, hsecF,
            if_neg hrootne, if_neg hrootne, hl1F (outerSlot q)]
          by_cases hs2q0 : fs.ptrs (fs.sectors DIRECT_BLOCKS) (outerSlot q) = 0
          · rw [hs2q0, if_pos rfl, if_pos rfl]
          · have hlt := hwf.l1Lt (outerSlot q)
            rw [hold (fs.ptrs (fs.sectors DIRECT_BLOCKS) (outerSlot q)) (innerSlot q)
                (by omega) ?hnotnew]
            case hnotnew =>
              intro hc
              exact hcnd ⟨hwf.l1Inj (outerSlot q) o hs2q0 hc.1, hc.2⟩
    refine ⟨?_, ?_, hsecF, hl1F o, hnew, hnf0⟩
    · refine ⟨by omega, ?_, ?_, ?_, ?_, ?_, ?_⟩
      · intro j
        rw [hsecF]
        have := hwf.arrLt j
        omega
      · intro o2
        rw [hsecF, hl1F]
        have := hwf.l1Lt o2
        omega
      · intro o2 j
        rw [hsecF, hl1F]
        have hlt := hwf.l1Lt o2
        by_cases hps : fs.ptrs (fs.sectors DIRECT_BLOCKS) o2 = fs.ptrs (fs.sectors DIRECT_BLOCKS) o
            ∧ j = i
        · rw [hptr, if_neg (by omega), if_pos hps]
          omega
        · rw [hold (fs.ptrs (fs.sectors DIRECT_BLOCKS) o2) j (by omega) hps]
          have := hwf.l2Lt o2 j
          omega
      · intro o2 hne
        rw [hsecF, hl1F] at hne ⊢
        exact hwf.l1NeRoot o2 hne
      · intro o1 o2 hne heq
        rw [hsecF, hl1F, hl1F] at heq
        rw [hsecF, hl1F] at hne
        exact hwf.l1Inj o1 o2 hne heq
      · intro p q tp tq hp hq heq
        rw [hresF] at hp hq
        split at hp
        next hcp =>
          split at hq
          next hcq =>
            rw [Option.some_inj] at hp hq
            exact block_of_slots p q (Nat.le_of_not_lt hcp.1) (Nat.le_of_not_lt hcq.1)
              (hcp.2.1.trans hcq.2.1.symm) (hcp.2.2.trans hcq.2.2.symm)
          · rw [Option.some_inj] at hp
            have := (resolve_lt fs hwf q tq hq).1
            omega
        · split at hq
          next hcq =>
            rw [Option.some_inj] at hq
            have := (resolve_lt fs hwf p tp hp).1
            omega
          · exact hwf.resInj p q tp tq hp hq heq
    · refine ⟨?_, ?_, by omega, rfl, rfl⟩
      · intro q t hq
        rw [hresF]
        split
        next hcq =>
          rw [resolveSector_indirect fs q hcq.1, if_neg hrootne, hcq.2.1, hcq.2.2,
            if_neg hs2ne, h0, if_pos rfl] at hq
          cases hq
        · exact hq
      · intro t o2 ht
        rw [hdat, if_neg (by omega : ¬ t = fs.next_free)]
  · rw [if_neg h0] at hr
    injection hr with h1 h2
    subst h1
    subst h2
    exact ⟨hwf, Step.same fs, rfl, rfl, rfl, h0⟩

/-- Specification of `byte_to_sector` from a well-formed state: the state
stays well-formed, the call is a `Step`, and afterwards the requested offset
resolves to the returned sector. -/
theorem bts_spec (fs : FsState) (pos s : Nat) (fs2 : FsState) (hwf : WF fs)
    (hr : byte_to_sector fs pos = (s, fs2)) :
    WF fs2 ∧ Step fs fs2 ∧ resolveSector fs2 pos = some s := by
  unfold byte_to_sector at hr
  dsimp only at hr
  by_cases hge : DIRECT_BLOCKS ≤ pos / BLOCK_SECTOR_SIZE
  · rw [if_pos hge] at hr
    obtain ⟨s1, fs1, hr1⟩ :
        ∃ a b, byte_to_indirect_sector fs (pos / BLOCK_SECTOR_SIZE) = (a, b) := ⟨_, _, rfl⟩
    rw [hr1] at hr
    dsimp only at hr
    obtain ⟨hwf1, hstep1, hroot1, hs1ne⟩ := bti_spec fs _ s1 fs1 hwf hr1
    rw [if_pos hge] at hroot1
    obtain ⟨s2, fsb, hr2⟩ :
        ∃ a b, byte_to_double_indirect_sec fs1 s1 (outerSlot pos) = (a, b) := ⟨_, _, rfl⟩
    rw [hr2] at hr
    dsimp only at hr
    obtain ⟨hwf2, hstep2, hsec2, hroot2, hslot2, hs2ne⟩ :=
      bdis_root_spec fs1 s1 (outerSlot pos) s2 fsb hwf1 hroot1 hs1ne hr2
    have hs2def : fsb.ptrs (fsb.sectors DIRECT_BLOCKS) (outerSlot pos) = s2 := by
      rw [hroot2]
      exact hslot2
    have hrne : fsb.sectors DIRECT_BLOCKS ≠ 0 := by
      rw [hroot2]
      exact hs1ne
    obtain ⟨hwf3, hstep3, hsec3, hslot3, hnew3, hsne⟩ :=
      bdis_l1_spec fsb (outerSlot pos) (innerSlot pos) s2 s fs2 hwf2 hrne hs2def hs2ne hr
    refine ⟨hwf3, (hstep1.comp hstep2).comp hstep3, ?_⟩
    have e1 : fs2.sectors DIRECT_BLOCKS = s1 := by
      rw [hsec3, hroot2]
    have e2 : fs2.ptrs s1 (outerSlot pos) = s2 := by
      rw [hroot2] at hslot3
      exact hslot3
    have e3 : fs2.ptrs s2 (innerSlot pos) = s := hnew3
    rw [resolveSector_indirect fs2 pos (Nat.not_lt.2 hge), e1, if_neg hs1ne, e2,
      if_neg hs2ne, e3, if_neg hsne]
  · rw [if_neg hge] at hr
    obtain ⟨hwf1, hstep1, hsec1, hsne⟩ := bti_spec fs _ s fs2 hwf hr
    rw [if_neg hge] at hsec1
    refine ⟨hwf1, hstep1, ?_⟩
    rw [resolveSector_direct fs2 pos (Nat.lt_of_not_le hge), hsec1, if_neg hsne]

/-- `byte_to_sector` allocates nothing on an offset that already resolves:
the state is returned unchanged together with the resolved sector. -/
theorem bts_pure (fs : FsState) (pos t : Nat) (h : resolveSector fs pos = some t) :
    byte_to_sector fs pos = (t, fs) := by
  unfold byte_to_sector
  dsimp only
  by_cases hge : DIRECT_BLOCKS ≤ pos / BLOCK_SECTOR_SIZE
  · rw [resolveSector_indirect fs pos (Nat.not_lt.2 hge)] at h
    split at h
    · cases h
    next hroot =>
      split at h
      · cases h
      next hs2 =>
        split at h
        · cases h
        next hs3 =>
          rw [Option.some_inj] at h
          subst h
          have h1 : byte_to_indirect_sector fs (pos / BLOCK_SECTOR_SIZE)
              = (fs.sectors DIRECT_BLOCKS, fs) := by
            unfold byte_to_indirect_sector
            dsimp only
            rw [if_pos hge, if_neg hroot]
          have h2 : byte_to_double_indirect_sec fs (fs.sectors DIRECT_BLOCKS) (outerSlot pos)
              = (fs.ptrs (fs.sectors DIRECT_BLOCKS) (outerSlot pos), fs) := by
            unfold byte_to_double_indirect_sec
            dsimp only
            rw [if_neg hs2]
          have h3 : byte_to_double_indirect_sec fs
              (fs.ptrs (fs.sectors DIRECT_BLOCKS) (outerSlot pos)) (innerSlot pos)
              = (fs.ptrs (fs.ptrs (fs.sectors DIRECT_BLOCKS) (outerSlot pos)) (innerSlot pos),
                 fs) := by
            unfold byte_to_double_indirect_sec
            dsimp only
            rw [if_neg hs3]
          rw [if_pos hge, h1]
          dsimp only
          rw [h2]
          dsimp only
          rw [h3]
  · rw [resolveSector_direct fs pos (Nat.lt_of_not_le hge)] at h
    split at h
    · cases h
    next hz =>
      rw [Option.some_inj] at h
      subst h
      rw [if_neg hge]
      unfold byte_to_indirect_sector
      dsimp only
      rw [if_neg hge, if_neg hz]

/-- Offsets within one sector share block index, and the in-sector offset
adds up. -/
theorem same_block (offset m : Nat) (h : offset % BLOCK_SECTOR_SIZE + m < BLOCK_SECTOR_SIZE) :
    (offset + m) / BLOCK_SECTOR_SIZE = offset / BLOCK_SECTOR_SIZE ∧
    (offset + m) % BLOCK_SECTOR_SIZE = offset % BLOCK_SECTOR_SIZE + m := by
  simp only [BLOCK_SECTOR_SIZE] at *
  omega

/-- A smaller offset in the same block has a smaller in-sector offset. -/
theorem below_in_block (p offset : Nat) (hlt : p < offset)
    (hb : p / BLOCK_SECTOR_SIZE = offset / BLOCK_SECTOR_SIZE) :
    p % BLOCK_SECTOR_SIZE < offset % BLOCK_SECTOR_SIZE := by
  simp only [BLOCK_SECTOR_SIZE] at *
  omega

/-- `writeBytes` only changes the data view, so resolution is untouched. -/
theorem writeBytes_resolve (fs : FsState) (sec ofs c w : Nat) (buf : Nat → Nat) (q : Nat) :
    resolveSector (writeBytes fs sec ofs c w buf) q = resolveSector fs q := rfl

/-- `writeBytes` preserves well-formedness. -/
theorem writeBytes_WF (fs : FsState) (sec ofs c w : Nat) (buf : Nat → Nat) (h : WF fs) :
    WF (writeBytes fs sec ofs c w buf) :=
  ⟨h.posFree, h.arrLt, h.l1Lt, h.l2Lt, h.l1NeRoot, h.l1Inj,
   fun p q tp tq hp hq heq => h.resInj p q tp tq hp hq heq⟩

/-- Pointwise description of the data view after `writeBytes`. -/
theorem writeBytes_data (fs : FsState) (sec ofs c w : Nat) (buf : Nat → Nat) (s o : Nat) :
    (writeBytes fs sec ofs c w buf).data s o =
      if s = sec ∧ ofs ≤ o ∧ o < ofs + c then buf (w + (o - ofs)) else fs.data s o := rfl

/-- Full specification of the `inode_write_at` copy loop under the
well-formedness invariant, with all allocations succeeding and the request
inside the size ceiling: it writes exactly `size` bytes; the state stays
well-formed; resolved blocks stay resolved; length and deny counter are
unchanged; bytes of blocks resolved before the loop at offsets below the
window are untouched; and every offset in the window now resolves to a
sector holding the corresponding payload byte. -/
theorem write_loop_spec (fuel : Nat) : ∀ size fs buf written offset, size ≤ fuel → WF fs →
    offset + size ≤ MAX_FILE_SIZE →
    (write_loop fuel fs buf written size offset).1 = written + size ∧
    WF (write_loop fuel fs buf written size offset).2 ∧
    (∀ q t, resolveSector fs q = some t →
        resolveSector ((write_loop fuel fs buf written size offset).2) q = some t) ∧
    ((write_loop fuel fs buf written size offset).2).length = fs.length ∧
    ((write_loop fuel fs buf written size offset).2).deny_write_cnt = fs.deny_write_cnt ∧
    (∀ p t, p < offset → resolveSector fs p = some t →
        ((write_loop fuel fs buf written size offset).2).data t (p % BLOCK_SECTOR_SIZE)
          = fs.data t (p % BLOCK_SECTOR_SIZE)) ∧
    (∀ m, m < size →
        ∃ t, resolveSector ((write_loop fuel fs buf written size offset).2) (offset + m)
              = some t ∧
          ((write_loop fuel fs buf written size offset).2).data t
              ((offset + m) % BLOCK_SECTOR_SIZE) = buf (written + m)) := by
  induction fuel with
  | zero =>
    intro size fs buf written offset hsz hwf hmax
    have h0 : size = 0 := Nat.le_zero.1 hsz
    subst h0
    exact ⟨rfl, hwf, fun q t h => h, rfl, rfl, fun p t _ _ => rfl, fun m hm => absurd hm (by omega)⟩
  | succ n ih =>
    intro size fs buf written offset hsz hwf hmax
    by_cases hsz0 : size = 0
    · subst hsz0
      unfold write_loop
      rw [if_pos rfl]
      exact ⟨rfl, hwf, fun q t h => h, rfl, rfl, fun p t _ _ => rfl,
        fun m hm => absurd hm (by omega)⟩
    · unfold write_loop
      dsimp only
      rw [if_neg hsz0]
      obtain ⟨s, fs1, hr1⟩ : ∃ a b, byte_to_sector fs offset = (a, b) := ⟨_, _, rfl⟩
      rw [hr1]
      dsimp only
      obtain ⟨hwf1, hstep1, hres1⟩ := bts_spec fs offset s fs1 hwf hr1
      have hslt := resolve_lt fs1 hwf1 offset s hres1
      have hofs : offset % BLOCK_SECTOR_SIZE < BLOCK_SECTOR_SIZE :=
        Nat.mod_lt offset (by decide)
      set c := min size (min (MAX_FILE_SIZE - offset)
        (BLOCK_SECTOR_SIZE - offset % BLOCK_SECTOR_SIZE)) with hc
      have hc1 : 1 ≤ c := by omega
      have hcsz : c ≤ size := by omega
      have hcofs : offset % BLOCK_SECTOR_SIZE + c ≤ BLOCK_SECTOR_SIZE := by omega
      rw [if_neg (by omega : ¬ c = 0)]
      set fsW := writeBytes fs1 s (offset % BLOCK_SECTOR_SIZE) c written buf with hWdef
      have hwfW : WF fsW := writeBytes_WF _ _ _ _ _ _ hwf1
      have hresW : ∀ q, resolveSector fsW q = resolveSector fs1 q := fun q => rfl
      obtain ⟨ihret, ihwf, ihres, ihlen, ihdeny, ihpres, ihnew⟩ :=
        ih (size - c) fsW buf (written + c) (offset + c) (by omega) hwfW (by omega)
      refine ⟨by rw [ihret]; omega, ihwf, ?_, ?_, ?_, ?_, ?_⟩
      · intro q t h
        exact ihres q t (hstep1.res q t h)
      · rw [ihlen]
        exact hstep1.lenEq
      · rw [ihdeny]
        exact hstep1.denyEq
      · intro p t hp hres
        have h1 : resolveSector fs1 p = some t := hstep1.res p t hres
        have htlt : t < fs.next_free := (resolve_lt fs hwf p t hres).1
        have hd1 : fs1.data t (p % BLOCK_SECTOR_SIZE) = fs.data t (p % BLOCK_SECTOR_SIZE) :=
          hstep1.dataPres t _ htlt
        have hWd : fsW.data t (p % BLOCK_SECTOR_SIZE) = fs1.data t (p % BLOCK_SECTOR_SIZE) := by
          rw [hWdef, writeBytes_data]
          by_cases hts : t = s
          · have hblk : p / BLOCK_SECTOR_SIZE = offset / BLOCK_SECTOR_SIZE :=
              hwf1.resInj p offset t s h1 hres1 hts
            have hlt2 : p % BLOCK_SECTOR_SIZE < offset % BLOCK_SECTOR_SIZE :=
              below_in_block p offset hp hblk
            exact if_neg (fun hcon => absurd hcon.2.1 (by omega))
          · exact if_neg (fun hcon => hts hcon.1)
        have hrec := ihpres p t (by omega) h1
        rw [hrec, hWd, hd1]
      · intro m hm
        by_cases hmc : m < c
        · have hsb := same_block offset m (by omega)
          have hres1m : resolveSector fs1 (offset + m) = some s := by
            rw [resolve_block_eq fs1 (offset + m) offset hsb.1]
            exact hres1
          have hdW : fsW.data s ((offset + m) % BLOCK_SECTOR_SIZE) = buf (written + m) := by
            rw [hsb.2, hWdef, writeBytes_data, if_pos ⟨rfl, by omega, by omega⟩]
            congr 1
            omega
          refine ⟨s, ihres (offset + m) s hres1m, ?_⟩
          rw [ihpres (offset + m) s (by omega) hres1m, hdW]
        · obtain ⟨t, hres, hdata⟩ := ihnew (m - c) (by omega)
          have e1 : offset + c + (m - c) = offset + m := by omega
          have e2 : written + c + (m - c) = written + m := by omega
          rw [e1] at hres hdata
          rw [e2] at hdata
          exact ⟨t, hres, hdata⟩

/-- The `inode_read_at` copy loop is pure and exact on a fully resolved
range within the file length: it returns precisely the stored payload and
leaves the state unchanged. -/
theorem read_loop_reads (fuel : Nat) : ∀ size offset fs payload, size ≤ fuel →
    (∀ m, m < size → ∃ t, resolveSector fs (offset + m) = some t ∧
        fs.data t ((offset + m) % BLOCK_SECTOR_SIZE) = payload m) →
    offset + size ≤ fs.length →
    read_loop fuel fs size offset = ((List.range size).map payload, fs) := by
  induction fuel with
  | zero =>
    intro size offset fs payload hsz hgood hlen
    have h0 : size = 0 := Nat.le_zero.1 hsz
    subst h0
    rfl
  | succ n ih =>
    intro size offset fs payload hsz hgood hlen
    by_cases hsz0 : size = 0
    · subst hsz0
      unfold read_loop
      rw [if_pos rfl]
      rfl
    · unfold read_loop
      dsimp only
      rw [if_neg hsz0]
      obtain ⟨t0, hres0, hdata0⟩ := hgood 0 (by omega)
      rw [Nat.add_zero] at hres0 hdata0
      rw [bts_pure fs offset t0 hres0]
      dsimp only
      have hofs : offset % BLOCK_SECTOR_SIZE < BLOCK_SECTOR_SIZE :=
        Nat.mod_lt offset (by decide)
      set c := min size (min (fs.length - offset)
        (BLOCK_SECTOR_SIZE - offset % BLOCK_SECTOR_SIZE)) with hc
      have hc1 : 1 ≤ c := by omega
      have hcsz : c ≤ size := by omega
      have hcofs : offset % BLOCK_SECTOR_SIZE + c ≤ BLOCK_SECTOR_SIZE := by omega
      rw [if_neg (by omega : ¬ c = 0)]
      have hrec := ih (size - c) (offset + c) fs (fun m => payload (c + m)) (by omega)
        ?goodrec (by omega)
      case goodrec =>
        intro m hm
        obtain ⟨t, h1, h2⟩ := hgood (c + m) (by omega)
        rw [show offset + (c + m) = offset + c + m from by omega] at h1 h2
        exact ⟨t, h1, h2⟩
      rw [hrec]
      dsimp only
      rw [Prod.mk.injEq]
      refine ⟨?_, rfl⟩
      have hbytes : (List.range c).map
          (fun i => fs.data t0 (offset % BLOCK_SECTOR_SIZE + i))
          = (List.range c).map payload := by
        apply List.map_congr_left
        intro a ha
        rw [List.mem_range] at ha
        obtain ⟨t, h1, h2⟩ := hgood a (by omega)
        have hsb := same_block offset a (by omega)
        have ht0 : resolveSector fs (offset + a) = some t0 := by
          rw [resolve_block_eq fs (offset + a) offset hsb.1]
          exact hres0
        rw [ht0, Option.some_inj] at h1
        subst h1
        rw [hsb.2] at h2
        exact h2
      rw [hbytes]
      conv_rhs => rw [show size = c + (size - c) from by omega, List.range_add,
        List.map_append, List.map_map]
      rfl

/-- `inode_write_at` under the invariant, with the request inside the size
ceiling and writes allowed: it reports exactly `size` bytes written, the
stored length now covers the written range, and every written offset
resolves to a sector holding its payload byte. -/
theorem inode_write_at_spec (fs : FsState) (buf : Nat → Nat) (size offset : Nat)
    (hwf : WF fs) (hdeny : fs.deny_write_cnt = 0) (hmax : offset + size ≤ MAX_FILE_SIZE) :
    (inode_write_at fs buf size offset).1 = size ∧
    offset + size ≤ ((inode_write_at fs buf size offset).2).length ∧
    (∀ m, m < size →
        ∃ t, resolveSector ((inode_write_at fs buf size offset).2) (offset + m) = some t ∧
          ((inode_write_at fs buf size offset).2).data t
            ((offset + m) % BLOCK_SECTOR_SIZE) = buf m) := by
  obtain ⟨hret, hwfL, hres, hlen, hdeny2, hpres, hnew⟩ :=
    write_loop_spec size size fs buf 0 offset (le_refl _) hwf hmax
  unfold inode_write_at
  rw [if_neg (fun h => h hdeny)]
  dsimp only
  split
  next hcond =>
    dsimp only
    refine ⟨by rw [hret]; omega, by rw [hret]; omega, ?_⟩
    intro m hm
    obtain ⟨t, h1, h2⟩ := hnew m hm
    rw [Nat.zero_add] at h2
    exact ⟨t, h1, h2⟩
  next hcond =>
    dsimp only
    refine ⟨by rw [hret]; omega, by omega, ?_⟩
    intro m hm
    obtain ⟨t, h1, h2⟩ := hnew m hm
    rw [Nat.zero_add] at h2
    exact ⟨t, h1, h2⟩

/-- Claim C4 (confirmed).  For every well-formed inode state with writes
allowed, every payload and every window `[off, off + n)` inside the hard
size ceiling (all sector allocations succeeding, as modelled), the write
returns `k = n`, the stored length then satisfies `length ≥ off + k`, and an
immediately following `inode_read_at` of `k` bytes at `off` returns exactly
the `k` payload bytes. -/
theorem c4_write_read_roundtrip (fs : FsState) (buf : Nat → Nat) (n off : Nat)
    (hwf : WF fs) (hdeny : fs.deny_write_cnt = 0) (hmax : off + n ≤ MAX_FILE_SIZE) :
    (inode_write_at fs buf n off).1 = n ∧
    off + (inode_write_at fs buf n off).1 ≤ ((inode_write_at fs buf n off).2).length ∧
    (inode_read_at ((inode_write_at fs buf n off).2) n off).1 = (List.range n).map buf := by
  obtain ⟨hret, hlen, hnew⟩ := inode_write_at_spec fs buf n off hwf hdeny hmax
  refine ⟨hret, by rw [hret]; exact hlen, ?_⟩
  by_cases hn0 : n = 0
  · subst hn0
    unfold inode_read_at
    dsimp only
    split
    · rfl
    · rfl
  · unfold inode_read_at
    dsimp only
    rw [if_neg (by omega : ¬ ((inode_write_at fs buf n off).2).length ≤ off)]
    rw [read_loop_reads n n off ((inode_write_at fs buf n off).2) buf (le_refl _)
      (fun m hm => hnew m hm) (by omega)]

/-- Witness for C4: a five-byte write at offset 0 into a fresh file reads
back as written. -/
theorem c4_witness :
    WF freshFS ∧ freshFS.deny_write_cnt = 0 ∧ 0 + 5 ≤ MAX_FILE_SIZE ∧
    ((inode_write_at freshFS bufC 5 0).1 = 5 ∧
     0 + (inode_write_at freshFS bufC 5 0).1 ≤ ((inode_write_at freshFS bufC 5 0).2).length ∧
     (inode_read_at ((inode_write_at freshFS bufC 5 0).2) 5 0).1
       = (List.range 5).map bufC) := by
  have hres0 : ∀ p, resolveSector freshFS p = none := by
    intro p
    by_cases hd : p / BLOCK_SECTOR_SIZE < DIRECT_BLOCKS
    · rw [resolveSector_direct freshFS p hd,
        if_pos (show freshFS.sectors (p / BLOCK_SECTOR_SIZE) = 0 from rfl)]
    · rw [resolveSector_indirect freshFS p hd,
        if_pos (show freshFS.sectors DIRECT_BLOCKS = 0 from rfl)]
  have hwf : WF freshFS := by
    refine ⟨Nat.one_pos, fun i => Nat.one_pos, fun o => Nat.one_pos,
      fun o i => Nat.one_pos, fun o h => absurd rfl h, fun o1 o2 h => absurd rfl h, ?_⟩
    intro p q tp tq hp hq heq
    rw [hres0 p] at hp
    cases hp
  exact ⟨hwf, rfl, by decide,
    c4_write_read_roundtrip freshFS bufC 5 0 hwf rfl (by decide)⟩

/-! ## Directory layer (filesys/directory.c, filesys/filesys.c)

The directory layer is modelled over its own state: the entry array of every
directory inode (`dir_entry` records: `in_use`, `name`, `inode_sector`), the
in-memory `removed` flag of the inode at each sector (well defined because
the open-inode table keeps at most one in-memory inode per sector), the
on-disk `is_dir` flag, and the free-map counter used by `filesys_create` for
the new inode sector.  Reading a directory's entries through
`inode_read_at` is modelled by direct access to its entry list. -/

structure DirEntry where
  in_use : Bool
  name : List Char
  inode_sector : Nat
deriving DecidableEq

structure DirState where
  entries : Nat → List DirEntry
  removed : Nat → Bool
  is_dir : Nat → Bool
  next_free : Nat

/-- The leading-`/` skip of `trace_path`. -/
def skipSlashes : List Char → List Char
  | [] => []
  | ch :: r => if ch = '/' then skipSlashes r else ch :: r

/-- The component scan of `trace_path`: characters up to the next `/` or the
end. -/
def takeComp : List Char → List Char
  | [] => []
  | ch :: r => if ch = '/' then [] else ch :: takeComp r

/-- The rest of the path from the component's terminator (the `/` itself is
kept, matching `return &traced_path[i]`). -/
def dropComp : List Char → List Char
  | [] => []
  | ch :: r => if ch = '/' then ch :: r else dropComp r

/-- `trace_path` (directory.c): `none` when the path is empty or consists
only of `/`; otherwise the rest of the path, the too-long flag, and the name
copied out (truncated to `NAME_MAX` bytes when too long). -/
def trace_path (path : List Char) : Option (List Char × Bool × List Char) :=
  let t := skipSlashes path
  if t = [] then none
  else
    let comp := takeComp t
    some (dropComp t, decide (NAME_MAX < comp.length),
      if NAME_MAX < comp.length then comp.take NAME_MAX else comp)

/-- The match predicate of `lookup` (directory.c):
`e.in_use && !strcmp (name, e.name)`. -/
def dirEntryMatches (nm : List Char) (e : DirEntry) : Bool :=
  e.in_use && decide (e.name = nm)

/-- `lookup` / `dir_lookup` (directory.c): first in-use entry with the given
name. -/
def dir_lookup (st : DirState) (dir : Nat) (nm : List Char) : Option DirEntry :=
  (st.entries dir).find? (dirEntryMatches nm)

/-- The loop of `retrieve_dir_from_location` (directory.c).  `fuel` bounds
the number of iterations; every iteration consumes at least one character of
the path, so `path.length + 1` is exact.  Returns the resolved directory
sector together with the final contents of the `file_name` buffer, or `none`
where the C code returns NULL. -/
def retrieve_loop : Nat → DirState → Nat → List Char → List Char → Bool →
    Option (Nat × List Char)
  | 0, _, _, _, _, _ => none
  | fuel + 1, st, dir, nameAcc, path, is_parent =>
    match trace_path path with
    | none => if is_parent then none else some (dir, nameAcc)
    | some (rest, tooLong, nm) =>
      if tooLong then (if is_parent then none else some (dir, nm))
      else if st.removed dir then none
      else if is_parent ∧ rest = [] then some (dir, nm)
      else
        match dir_lookup st dir nm with
        | none => none
        | some e => retrieve_loop fuel st e.inode_sector nm rest is_parent

/-- `retrieve_dir_from_location` (directory.c): empty path fails; a path
beginning with `/` starts at the root sector, otherwise at the calling
thread's current directory. -/
def retrieve_dir_from_location (st : DirState) (cwd : Nat) (path : List Char)
    (is_parent : Bool) : Option (Nat × List Char) :=
  if path = [] then none
  else
    retrieve_loop (path.length + 1) st
      (if path.head? = some '/' then ROOT_DIR_SECTOR else cwd) [] path is_parent

/-- Whether some component of the path exceeds `NAME_MAX`, phrased by the
same scan `trace_path` performs. -/
def has_long_component : Nat → List Char → Bool
  | 0, _ => false
  | fuel + 1, path =>
    match trace_path path with
    | none => false
    | some (rest, tooLong, _) => tooLong || has_long_component fuel rest

/-- `is_empty_dir` (directory.c): no entry beyond the two reserved slots is
in use. -/
def is_empty_dir (st : DirState) (dir : Nat) : Bool :=
  ((st.entries dir).drop 2).all (fun e => !e.in_use)

/-- The free-slot reuse of `dir_add`: overwrite the first entry that is not
in use, or append at end of file. -/
def replaceFirstFree (es : List DirEntry) (e : DirEntry) : List DirEntry :=
  match es with
  | [] => [e]
  | e0 :: r => if e0.in_use then e0 :: replaceFirstFree r e else e :: r

/-- `dir_add` (directory.c): reject empty or too-long names and duplicates,
else write the entry into the first free slot. -/
def dir_add (st : DirState) (dir : Nat) (nm : List Char) (sector : Nat) :
    Bool × DirState :=
  if nm = [] ∨ NAME_MAX < nm.length then (false, st)
  else if (dir_lookup st dir nm).isSome then (false, st)
  else
    (true, { st with entries := fun d =>
        if d = dir then replaceFirstFree (st.entries dir) ⟨true, nm, sector⟩
        else st.entries d })

/-- Clearing the `in_use` bit of the first matching entry, as `dir_remove`
writes back the found entry with `in_use = false`. -/
def clearFirstMatch (es : List DirEntry) (nm : List Char) : List DirEntry :=
  match es with
  | [] => []
  | e :: r => if dirEntryMatches nm e then { e with in_use := false } :: r
              else e :: clearFirstMatch r nm

/-- `dir_remove` (directory.c): look the name up, clear its entry, and mark
the target inode removed (`inode_remove`). -/
def dir_remove (st : DirState) (dir : Nat) (nm : List Char) : Bool × DirState :=
  match dir_lookup st dir nm with
  | none => (false, st)
  | some e =>
    (true, { st with
      entries := fun d =>
        if d = dir then clearFirstMatch (st.entries dir) nm else st.entries d,
      removed := fun s => if s = e.inode_sector then true else st.removed s })

/-- `filesys_remove` (filesys.c): resolve the parent, look the leaf up,
refuse to remove a non-empty directory, else remove the entry and mark the
inode. -/
def filesys_remove (st : DirState) (cwd : Nat) (path : List Char) : Bool × DirState :=
  match retrieve_dir_from_location st cwd path true with
  | none => (false, st)
  | some (dir, nm) =>
    match dir_lookup st dir nm with
    | none => (false, st)
    | some e =>
      if st.is_dir e.inode_sector ∧ ¬ is_empty_dir st e.inode_sector then (false, st)
      else dir_remove st dir nm

/-- The record initialization performed by `inode_create` for a fresh file
inode, at the directory-layer level of abstraction: not a directory, no
entries.  (The byte contents of file inodes live in the inode-layer model
above.) -/
def inodeCreateAt (st : DirState) (sector : Nat) : DirState :=
  { st with is_dir := fun s => if s = sector then false else st.is_dir s,
            entries := fun d => if d = sector then [] else st.entries d }

/-- `filesys_create` (filesys.c): resolve the parent, allocate an inode
sector, build the record, add the directory entry.  (The free-map release on
a failing `dir_add` is not modelled; no claim depends on it.) -/
def filesys_create (st : DirState) (cwd : Nat) (path : List Char) : Bool × DirState :=
  match retrieve_dir_from_location st cwd path true with
  | none => (false, st)
  | some (dir, nm) =>
    let sector := st.next_free
    let st1 := { inodeCreateAt st sector with next_free := st.next_free + 1 }
    dir_add st1 dir nm sector

/-! ## Claims C6, C7, C10 -/

theorem skipSlashes_len (path : List Char) : (skipSlashes path).length ≤ path.length := by
  induction path with
  | nil => exact le_refl _
  | cons ch r ih =>
    unfold skipSlashes
    split
    · exact le_trans ih (by simp)
    · exact le_refl _

theorem dropComp_len (l : List Char) : (dropComp l).length ≤ l.length := by
  induction l with
  | nil => exact le_refl _
  | cons ch r ih =>
    unfold dropComp
    split
    · exact le_refl _
    · exact le_trans ih (by simp)

theorem skipSlashes_head (path : List Char) :
    skipSlashes path = [] ∨ ∃ ch r, skipSlashes path = ch :: r ∧ ¬ ch = '/' := by
  induction path with
  | nil => exact Or.inl rfl
  | cons ch r ih =>
    unfold skipSlashes
    split
    · exact ih
    next h => exact Or.inr ⟨ch, r, rfl, h⟩

/-- Every `trace_path` step strictly shortens the path. -/
theorem trace_path_len (path rest : List Char) (b : Bool) (nm : List Char)
    (h : trace_path path = some (rest, b, nm)) : rest.length < path.length := by
  unfold trace_path at h
  dsimp only at h
  split at h
  · cases h
  next hne =>
    rw [Option.some_inj] at h
    have h1 : dropComp (skipSlashes path) = rest := congrArg Prod.fst h
    subst h1
    rcases skipSlashes_head path with he | ⟨ch, r, heq, hch⟩
    · exact absurd he hne
    · have hle := skipSlashes_len path
      rw [heq] at hle ⊢
      unfold dropComp
      rw [if_neg hch]
      have := dropComp_len r
      simp at hle ⊢
      omega

theorem has_long_nil (n : Nat) : has_long_component n [] = false := by
  cases n with
  | zero => rfl
  | succ m => rfl

/-- Parent-mode resolution fails on every path with an over-long
component. -/
theorem retrieve_loop_toolong (fuel : Nat) : ∀ st dir acc path,
    path.length < fuel → has_long_component fuel path = true →
    retrieve_loop fuel st dir acc path true = none := by
  induction fuel with
  | zero =>
    intro st dir acc path hlen hlong
    omega
  | succ n ih =>
    intro st dir acc path hlen hlong
    unfold has_long_component at hlong
    unfold retrieve_loop
    cases htp : trace_path path with
    | none =>
      rw [htp] at hlong
      cases hlong
    | some trip =>
      obtain ⟨rest, tooLong, nm⟩ := trip
      rw [htp] at hlong
      dsimp only at hlong
      simp only [htp]
      by_cases htl : tooLong = true
      · rw [if_pos htl]
        rfl
      · have hrest : has_long_component n rest = true := by
          cases tooLong
          · simpa using hlong
          · exact absurd rfl htl
        rw [if_neg htl]
        by_cases hrem : st.removed dir = true
        · rw [if_pos hrem]
        · rw [if_neg hrem]
          have hrestne : ¬ rest = [] := by
            intro hr
            rw [hr, has_long_nil] at hrest
            cases hrest
          rw [if_neg (fun hc => hrestne hc.2)]
          cases hlk : dir_lookup st dir nm with
          | none => simp only [hlk]
          | some e =>
            simp only [hlk]
            have := trace_path_len path rest tooLong nm htp
            exact ih st e.inode_sector nm rest (by omega) hrest

/-- A concrete trivial directory state. -/
def trivDirState : DirState :=
  { entries := fun _ => [], removed := fun _ => false, is_dir := fun _ => false,
    next_free := 10 }

/-- A path whose single component has 16 characters. -/
def longPath : List Char := "/abcdefghijklmnop".toList

/-- Claim C6 counterexample.  On a path with an over-long component,
`retrieve_dir_from_location` with `want_parent = false` does NOT return
null: the too-long break falls through to `return dir`, handing back the
directory reached so far (here the root), with the truncated name in the
buffer.  This refutes "returns null ... both when resolving the parent and
when resolving the leaf itself; hence open ... fails". -/
theorem c6_leaf_toolong_counterexample :
    retrieve_dir_from_location trivDirState 5 longPath false
      = some (ROOT_DIR_SECTOR, "abcdefghijklmn".toList) ∧
    ¬ retrieve_dir_from_location trivDirState 5 longPath false = none := by
  exact ⟨by decide, by decide⟩

/-- Claim C6 (amended).  A path containing a component longer than
`NAME_MAX` makes parent-mode resolution return null, so `filesys_create`
and `filesys_remove` on such a path fail; but leaf-mode resolution returns
the directory reached so far instead of null (see the counterexample), so
`filesys_open` does not fail on that ground. -/
theorem c6_toolong_parent_resolution_fails (st : DirState) (cwd : Nat) (path : List Char)
    (hlong : has_long_component (path.length + 1) path = true) :
    retrieve_dir_from_location st cwd path true = none ∧
    (filesys_create st cwd path).1 = false ∧
    filesys_remove st cwd path = (false, st) := by
  have hret : retrieve_dir_from_location st cwd path true = none := by
    unfold retrieve_dir_from_location
    by_cases hne : path = []
    · rw [if_pos hne]
    · rw [if_neg hne]
      exact retrieve_loop_toolong (path.length + 1) st _ [] path (by omega) hlong
  refine ⟨hret, ?_, ?_⟩
  · unfold filesys_create
    rw [hret]
  · unfold filesys_remove
    rw [hret]

/-- Witness for C6's amended theorem at the concrete long path. -/
theorem c6_witness :
    has_long_component (longPath.length + 1) longPath = true ∧
    retrieve_dir_from_location trivDirState 5 longPath true = none ∧
    (filesys_create trivDirState 5 longPath).1 = false ∧
    filesys_remove trivDirState 5 longPath = (false, trivDirState) :=
  ⟨by decide, c6_toolong_parent_resolution_fails trivDirState 5 longPath (by decide)⟩

/-- Claim C7 (confirmed).  When a path's parent resolution and leaf lookup
land on an entry whose inode is a non-empty directory (an in-use entry
beyond the two reserved slots), `filesys_remove` returns false and leaves
the state — in particular the entry's `in_use` bit — untouched; and whenever
`filesys_remove` succeeds on a directory target, that directory was empty
beyond its two reserved slots. -/
theorem c7_nonempty_dir_not_removable (st : DirState) (cwd : Nat) (path : List Char)
    (dir : Nat) (nm : List Char) (e : DirEntry)
    (hres : retrieve_dir_from_location st cwd path true = some (dir, nm))
    (hlk : dir_lookup st dir nm = some e)
    (hdir : st.is_dir e.inode_sector = true) :
    (is_empty_dir st e.inode_sector = false →
      filesys_remove st cwd path = (false, st) ∧ e.in_use = true) ∧
    ((filesys_remove st cwd path).1 = true → is_empty_dir st e.inode_sector = true) := by
  have hin : e.in_use = true := by
    have h := List.find?_some hlk
    unfold dirEntryMatches at h
    rw [Bool.and_eq_true] at h
    exact h.1
  constructor
  · intro hne
    refine ⟨?_, hin⟩
    unfold filesys_remove
    rw [hres]
    dsimp only
    rw [hlk]
    dsimp only
    rw [if_pos ⟨hdir, fun hc => Bool.false_ne_true (hne ▸ hc)⟩]
  · by_cases hemp : is_empty_dir st e.inode_sector = true
    · exact fun _ => hemp
    · intro hsucc
      exfalso
      unfold filesys_remove at hsucc
      rw [hres] at hsucc
      dsimp only at hsucc
      rw [hlk] at hsucc
      dsimp only at hsucc
      rw [if_pos ⟨hdir, fun hc => hemp hc⟩] at hsucc
      exact Bool.false_ne_true hsucc

/-- A two-directory tree: the root (sector 1) holds `d` (sector 2), which
holds `x` (sector 3). -/
def st7 : DirState :=
  { entries := fun d =>
      if d = 1 then [⟨true, ['.'], 1⟩, ⟨true, ['.', '.'], 1⟩, ⟨true, ['d'], 2⟩]
      else if d = 2 then [⟨true, ['.'], 2⟩, ⟨true, ['.', '.'], 1⟩, ⟨true, ['x'], 3⟩]
      else [],
    removed := fun _ => false,
    is_dir := fun s => decide (s = 1 ∨ s = 2),
    next_free := 4 }

/-- Witness for C7: removing the non-empty directory `/d` fails and leaves
its entry in use. -/
theorem c7_witness :
    retrieve_dir_from_location st7 9 ['/', 'd'] true = some (1, ['d']) ∧
    dir_lookup st7 1 ['d'] = some ⟨true, ['d'], 2⟩ ∧
    st7.is_dir 2 = true ∧ is_empty_dir st7 2 = false ∧
    filesys_remove st7 9 ['/', 'd'] = (false, st7) ∧
    (⟨true, ['d'], 2⟩ : DirEntry).in_use = true := by
  have h := (c7_nonempty_dir_not_removable st7 9 ['/', 'd'] 1 ['d'] ⟨true, ['d'], 2⟩
    (by decide) (by decide) (by decide)).1 (by decide)
  exact ⟨by decide, by decide, by decide, by decide, h.1, h.2⟩

theorem skipSlashes_all_slash (path : List Char) (h : ∀ ch ∈ path, ch = '/') :
    skipSlashes path = [] := by
  induction path with
  | nil => rfl
  | cons ch r ih =>
    unfold skipSlashes
    rw [if_pos (h ch (by simp))]
    exact ih (fun c hc => h c (by simp [hc]))

/-- Claim C10 (amended).  On a non-empty path consisting only of `/`
separators, parent resolution finds no leaf component and returns null, so
`filesys_create` and `filesys_remove` on such a path return false.  (The
clause "the root directory can never be removed through the public entry
points" does not hold in general: see the `/.` counterexample.) -/
theorem c10_all_slash_paths_fail (st : DirState) (cwd : Nat) (path : List Char)
    (hne : path ≠ []) (hall : ∀ ch ∈ path, ch = '/') :
    retrieve_dir_from_location st cwd path true = none ∧
    (filesys_create st cwd path).1 = false ∧
    filesys_remove st cwd path = (false, st) := by
  have htp : trace_path path = none := by
    unfold trace_path
    dsimp only
    rw [skipSlashes_all_slash path hall, if_pos rfl]
  have hret : retrieve_dir_from_location st cwd path true = none := by
    unfold retrieve_dir_from_location
    rw [if_neg hne]
    unfold retrieve_loop
    rw [htp]
    rfl
  refine ⟨hret, ?_, ?_⟩
  · unfold filesys_create
    rw [hret]
  · unfold filesys_remove
    rw [hret]

/-- A freshly formatted file system: the root (sector 1) holds only `.` and
`..`, both pointing at the root, exactly as `root_dir_init` leaves it. -/
def rootSt : DirState :=
  { entries := fun d =>
      if d = 1 then [⟨true, ['.'], 1⟩, ⟨true, ['.', '.'], 1⟩] else [],
    removed := fun _ => false,
    is_dir := fun s => decide (s = 1),
    next_free := 2 }

/-- Claim C10 counterexample.  The root CAN be removed through the public
entry points: on a freshly formatted file system, `filesys_remove "/."`
resolves the root as its own parent with leaf `.`, finds the root directory
empty beyond its two reserved slots, clears the `.` entry, and marks the
root inode removed — returning true.  This refutes "the root directory can
never be removed ... through the public entry points". -/
theorem c10_root_removed_via_dot_counterexample :
    (filesys_remove rootSt 6 ['/', '.']).1 = true ∧
    ((filesys_remove rootSt 6 ['/', '.']).2).removed ROOT_DIR_SECTOR = true := by
  exact ⟨by decide, by decide⟩

/-- Witness for C10's amended theorem at the concrete path `//`. -/
theorem c10_witness :
    (['/', '/'] : List Char) ≠ [] ∧ (∀ ch ∈ (['/', '/'] : List Char), ch = '/') ∧
    retrieve_dir_from_location rootSt 6 ['/', '/'] true = none ∧
    (filesys_create rootSt 6 ['/', '/']).1 = false ∧
    filesys_remove rootSt 6 ['/', '/'] = (false, rootSt) :=
  ⟨by decide, by decide,
    c10_all_slash_paths_fail rootSt 6 ['/', '/'] (by decide) (by decide)⟩

/-! ## Claim C8: the open-inode table (inode.c)

An in-memory `struct inode` is identified by a stable id (its allocation
address in C).  `inode_open` scans the `open_inodes` list for the sector;
on a hit it runs `inode_reopen` on the found inode and returns it, on a miss
it pushes a fresh inode with `open_cnt = 1` onto the front.  `open_cnt` is
an `int` in C, hence modelled as `Int`. -/

structure MInode where
  id : Nat
  sector : Nat
  open_cnt : Int
  removed : Bool
  deny_write_cnt : Int
deriving DecidableEq

structure InodeTable where
  tbl : List MInode
  next_id : Nat
deriving DecidableEq

/-- The `open_inodes` scan of `inode_open`: first inode with the sector. -/
def find_by_sector (l : List MInode) (s : Nat) : Option MInode :=
  l.find? (fun m => decide (m.sector = s))

/-- `inode_reopen` applied to the first list element holding the sector. -/
def bump_first : List MInode → Nat → List MInode
  | [], _ => []
  | m :: r, s =>
    if m.sector = s then { m with open_cnt := m.open_cnt + 1 } :: r
    else m :: bump_first r s

/-- `inode_open` (inode.c): scan; on a hit reopen and return the existing
inode, on a miss push a fresh one with `open_cnt = 1` to the front.
Returns the id of the returned inode. -/
def inode_open (st : InodeTable) (s : Nat) : Nat × InodeTable :=
  match find_by_sector st.tbl s with
  | some m => (m.id, { st with tbl := bump_first st.tbl s })
  | none => (st.next_id,
      { tbl := ⟨st.next_id, s, 1, false, 0⟩ :: st.tbl, next_id := st.next_id + 1 })

/-- `inode_reopen` (inode.c) by inode id. -/
def inode_reopen (st : InodeTable) (i : Nat) : InodeTable :=
  { st with tbl := st.tbl.map (fun m =>
      if m.id = i then { m with open_cnt := m.open_cnt + 1 } else m) }

/-- The table effect of `inode_close` (inode.c): decrement `open_cnt`; when
it hits zero, remove the inode from the list. -/
def close_by_id : List MInode → Nat → List MInode
  | [], _ => []
  | m :: r, i =>
    if m.id = i then
      if m.open_cnt - 1 = 0 then r else { m with open_cnt := m.open_cnt - 1 } :: r
    else m :: close_by_id r i

def inode_close_table (st : InodeTable) (i : Nat) : InodeTable :=
  { st with tbl := close_by_id st.tbl i }

/-- One call into the inode table. -/
inductive TblOp where
  | opn : Nat → TblOp
  | reopen : Nat → TblOp
  | close : Nat → TblOp

def table_step (st : InodeTable) : TblOp → InodeTable
  | .opn s => (inode_open st s).2
  | .reopen i => inode_reopen st i
  | .close i => inode_close_table st i

def run_table : List TblOp → InodeTable → InodeTable
  | [], st => st
  | op :: r, st => run_table r (table_step st op)

def sectors_of (l : List MInode) : List Nat := l.map (fun m => m.sector)

/-- At most one in-memory inode per on-disk sector. -/
def distinct_sectors (l : List MInode) : Prop := (sectors_of l).Nodup

/-- The empty table at boot (`inode_init`). -/
def init_table : InodeTable := ⟨[], 0⟩

theorem bump_first_sectors (l : List MInode) (s : Nat) :
    sectors_of (bump_first l s) = sectors_of l := by
  induction l with
  | nil => rfl
  | cons m r ih =>
    unfold bump_first
    split
    · rfl
    · unfold sectors_of at ih ⊢
      rw [List.map_cons, List.map_cons, ih]

theorem close_by_id_sectors (l : List MInode) (i : Nat) (x : Nat)
    (hx : x ∈ sectors_of (close_by_id l i)) : x ∈ sectors_of l := by
  induction l with
  | nil => exact hx
  | cons m r ih =>
    unfold close_by_id at hx
    split at hx
    · split at hx
      · unfold sectors_of at hx ⊢
        rw [List.map_cons, List.mem_cons]
        exact Or.inr hx
      · exact hx
    · unfold sectors_of at hx ⊢
      rw [List.map_cons, List.mem_cons] at hx
      rw [List.map_cons, List.mem_cons]
      rcases hx with h | h
      · exact Or.inl h
      · exact Or.inr (ih h)

theorem close_by_id_distinct (l : List MInode) (i : Nat) (h : distinct_sectors l) :
    distinct_sectors (close_by_id l i) := by
  induction l with
  | nil => exact h
  | cons m r ih =>
    unfold distinct_sectors sectors_of at h
    rw [List.map_cons, List.nodup_cons] at h
    unfold close_by_id
    split
    · split
      · exact h.2
      · unfold distinct_sectors sectors_of
        rw [List.map_cons, List.nodup_cons]
        exact h
    · unfold distinct_sectors sectors_of
      rw [List.map_cons, List.nodup_cons]
      exact ⟨fun hmem => h.1 (close_by_id_sectors r i m.sector hmem), ih h.2⟩

theorem map_bump_sectors (l : List MInode) (i : Nat) :
    sectors_of (l.map (fun m => if m.id = i then { m with open_cnt := m.open_cnt + 1 }
      else m)) = sectors_of l := by
  unfold sectors_of
  rw [List.map_map]
  apply List.map_congr_left
  intro m hm
  by_cases hid : m.id = i
  · simp [hid]
  · simp [hid]

theorem table_step_distinct (st : InodeTable) (op : TblOp) (h : distinct_sectors st.tbl) :
    distinct_sectors (table_step st op).tbl := by
  cases op with
  | opn s =>
    unfold table_step inode_open
    dsimp only
    cases hf : find_by_sector st.tbl s with
    | some m =>
      dsimp only
      unfold distinct_sectors
      rw [bump_first_sectors]
      exact h
    | none =>
      dsimp only
      unfold distinct_sectors sectors_of
      rw [List.map_cons, List.nodup_cons]
      refine ⟨?_, h⟩
      intro hmem
      rw [List.mem_map] at hmem
      obtain ⟨m, hm, hsec⟩ := hmem
      unfold find_by_sector at hf
      have hne := List.find?_eq_none.1 hf m hm
      simp at hne
      exact hne hsec
  | reopen i =>
    unfold table_step inode_reopen
    unfold distinct_sectors
    rw [map_bump_sectors]
    exact h
  | close i =>
    exact close_by_id_distinct st.tbl i h

/-- Behavior of the table scan after a reopen of the found inode. -/
theorem find_bump (l : List MInode) (s : Nat) (m : MInode)
    (hf : find_by_sector l s = some m) :
    find_by_sector (bump_first l s) s = some { m with open_cnt := m.open_cnt + 1 } := by
  induction l with
  | nil => cases hf
  | cons m0 r ih =>
    unfold find_by_sector at hf ih ⊢
    unfold bump_first
    by_cases hm0 : m0.sector = s
    · rw [if_pos hm0]
      rw [List.find?_cons_of_pos _ (by simpa using hm0)] at hf
      rw [Option.some_inj] at hf
      subst hf
      rw [List.find?_cons_of_pos _ (by simpa using hm0)]
    · rw [if_neg hm0]
      rw [List.find?_cons_of_neg _ (by simpa using hm0)] at hf
      rw [List.find?_cons_of_neg _ (by simpa using hm0)]
      exact ih hf

theorem bump_first_length (l : List MInode) (s : Nat) :
    (bump_first l s).length = l.length := by
  induction l with
  | nil => rfl
  | cons m r ih =>
    unfold bump_first
    split
    · rfl
    · rw [List.length_cons, List.length_cons, ih]

/-- Claim C8 (confirmed).  Starting from the boot-time empty table, every
sequence of `inode_open` / `inode_reopen` / `inode_close` calls keeps at
most one in-memory inode per sector; `inode_open` on a sector already in
the table returns the existing inode (same id, table length unchanged) with
its open count incremented, and creates a new entry with `open_cnt = 1`
only on a miss; in particular two successive opens of sector 5 return the
identical inode, with `open_cnt = 2`. -/
theorem c8_open_table_unique :
    (∀ ops, distinct_sectors (run_table ops init_table).tbl) ∧
    (∀ st s m, find_by_sector st.tbl s = some m →
      (inode_open st s).1 = m.id ∧
      ((inode_open st s).2).tbl.length = st.tbl.length ∧
      find_by_sector ((inode_open st s).2).tbl s
        = some { m with open_cnt := m.open_cnt + 1 }) ∧
    (∀ st s, find_by_sector st.tbl s = none →
      (inode_open st s).1 = st.next_id ∧
      ((inode_open st s).2).tbl = ⟨st.next_id, s, 1, false, 0⟩ :: st.tbl) ∧
    ((inode_open ((inode_open init_table 5).2) 5).1 = (inode_open init_table 5).1 ∧
     ((inode_open ((inode_open init_table 5).2) 5).2).tbl = [⟨0, 5, 2, false, 0⟩]) := by
  refine ⟨?_, ?_, ?_, by decide, by decide⟩
  · intro ops
    have hrun : ∀ ops2 st, distinct_sectors st.tbl →
        distinct_sectors (run_table ops2 st).tbl := by
      intro ops2
      induction ops2 with
      | nil => intro st h; exact h
      | cons op r ih =>
        intro st h
        exact ih (table_step st op) (table_step_distinct st op h)
    exact hrun ops init_table List.nodup_nil
  · intro st s m hf
    unfold inode_open
    rw [hf]
    exact ⟨rfl, bump_first_length st.tbl s, find_bump st.tbl s m hf⟩
  · intro st s hf
    unfold inode_open
    rw [hf]
    exact ⟨rfl, rfl⟩

/-- Witness for C8's hit clause at a concrete table. -/
theorem c8_witness :
    find_by_sector [⟨0, 5, 1, false, 0⟩] 5 = some ⟨0, 5, 1, false, 0⟩ ∧
    (inode_open ⟨[⟨0, 5, 1, false, 0⟩], 1⟩ 5).1 = 0 ∧
    ((inode_open ⟨[⟨0, 5, 1, false, 0⟩], 1⟩ 5).2).tbl.length = 1 ∧
    find_by_sector ((inode_open ⟨[⟨0, 5, 1, false, 0⟩], 1⟩ 5).2).tbl 5
      = some ⟨0, 5, 2, false, 0⟩ := by
  have h := c8_open_table_unique.2.1 ⟨[⟨0, 5, 1, false, 0⟩], 1⟩ 5 ⟨0, 5, 1, false, 0⟩
    (by decide)
  exact ⟨by decide, h.1, h.2.1, h.2.2⟩

/-! ## Claim C9: the buffer cache (cache.c)

Cache slots carry a stable id (the slot's address in C).  The model records
the device I/O each operation performs as an ordered event list:
`writeEv s` for `block_write (fs_device, s, ...)`, `readEv s` for
`block_read`, and `reassign id old new wasDirty` for the moment
`buf->disk_sector = sector` overwrites a slot's held sector (the flag is
the slot's dirty bit just before the eviction sequence).  The sequential
model elides `cond_wait` (in a single-threaded execution every slot is
available at the quiescent points where these operations run). -/

structure CSlot where
  id : Nat
  disk_sector : Nat
  is_dirty : Bool
  accessed : Bool
  is_available : Bool
deriving DecidableEq

inductive CEvent where
  | writeEv : Nat → CEvent
  | reassign : Nat → Nat → Nat → Bool → CEvent
  | readEv : Nat → CEvent
deriving DecidableEq

/-- One pass of `find_buffer`'s scan: return a slot matching the sector
immediately; otherwise clear the reference bit of available accessed slots
and remember the first available unreferenced slot as the victim
candidate. -/
def scan_pass : List CSlot → Nat → List CSlot × Option (Sum Nat Nat)
  | [], _ => ([], none)
  | b :: rest, s =>
    if b.disk_sector = s then (b :: rest, some (Sum.inl b.id))
    else if b.is_available then
      if b.accessed then
        let r := scan_pass rest s
        ({ b with accessed := false } :: r.1, r.2)
      else
        let r := scan_pass rest s
        match r.2 with
        | some (Sum.inl mid) => (b :: r.1, some (Sum.inl mid))
        | _ => (b :: r.1, some (Sum.inr b.id))
    else
      let r := scan_pass rest s
      (b :: r.1, r.2)

/-- `find_buffer` (cache.c): rescan until a match or a candidate is found.
Two passes suffice whenever an available slot exists (the first pass clears
every reference bit it sees); when none exists the C loop spins forever,
modelled as `none`. -/
def find_buffer (slots : List CSlot) (s : Nat) : List CSlot × Option (Sum Nat Nat) :=
  let r1 := scan_pass slots s
  match r1.2 with
  | some res => (r1.1, some res)
  | none => scan_pass r1.1 s

def get_slot (slots : List CSlot) (i : Nat) : Option CSlot :=
  slots.find? (fun b => decide (b.id = i))

def set_slot (slots : List CSlot) (i : Nat) (b2 : CSlot) : List CSlot :=
  slots.map (fun b => if b.id = i then b2 else b)

def set_accessed (slots : List CSlot) (i : Nat) : List CSlot :=
  slots.map (fun b => if b.id = i then { b with accessed := true } else b)

/-- `allocate_buffer` (cache.c): on a hit, mark the slot referenced; on an
eviction, write the victim back if dirty, then reassign its sector and read
the new sector in. -/
def allocate_buffer (slots : List CSlot) (s : Nat) : List CSlot × List CEvent :=
  let fr := find_buffer slots s
  match fr.2 with
  | none => (fr.1, [])
  | some (Sum.inl mid) => (set_accessed fr.1 mid, [])
  | some (Sum.inr vid) =>
    match get_slot fr.1 vid with
    | none => (fr.1, [])
    | some b =>
      (set_slot fr.1 vid
        { b with disk_sector := s, is_dirty := false, accessed := true,
                 is_available := true },
       (if b.is_dirty then [CEvent.writeEv b.disk_sector] else [])
         ++ [CEvent.reassign vid b.disk_sector s b.is_dirty, CEvent.readEv s])

def remove_first_slot : List CSlot → Nat → List CSlot
  | [], _ => []
  | b :: r, i => if b.id = i then r else b :: remove_first_slot r i

/-- `deallocate_buffer` (cache.c): set the dirty bit when the caller wrote,
move the slot to the back of the list, mark it available.  No device
I/O. -/
def deallocate_buffer (slots : List CSlot) (i : Nat) (dirty : Bool) :
    List CSlot × List CEvent :=
  match get_slot slots i with
  | none => (slots, [])
  | some b =>
    (remove_first_slot slots i
       ++ [{ b with is_dirty := b.is_dirty || dirty, is_available := true }], [])

def extract_first_dirty : List CSlot → Option (CSlot × List CSlot)
  | [] => none
  | b :: r =>
    if b.is_dirty then some (b, r)
    else match extract_first_dirty r with
         | none => none
         | some (d, r2) => some (d, b :: r2)

/-- The walk of `write_dirty_to_disk` (cache.c): flush the first dirty slot
(clearing its dirty bit and moving it to the back, as the
`deallocate_buffer (buf, false)` call does), then restart from the list
head; stop when no dirty slot remains.  Each flush clears one dirty bit and
never sets one, so `slots.length` rounds of fuel are exact. -/
def flush_loop : Nat → List CSlot → List CSlot × List CEvent
  | 0, slots => (slots, [])
  | fuel + 1, slots =>
    match extract_first_dirty slots with
    | none => (slots, [])
    | some (b, rest) =>
      let r := flush_loop fuel
        (rest ++ [{ b with is_dirty := false, is_available := true }])
      (r.1, CEvent.writeEv b.disk_sector :: r.2)

def write_dirty_to_disk (slots : List CSlot) : List CSlot × List CEvent :=
  flush_loop slots.length slots

inductive CacheOp where
  | alloc : Nat → CacheOp
  | dealloc : Nat → Bool → CacheOp
  | flush : CacheOp

def cache_step (slots : List CSlot) : CacheOp → List CSlot × List CEvent
  | .alloc s => allocate_buffer slots s
  | .dealloc i d => deallocate_buffer slots i d
  | .flush => write_dirty_to_disk slots

def run_cache : List CacheOp → List CSlot → List CSlot × List CEvent
  | [], slots => (slots, [])
  | op :: r, slots =>
    let s1 := cache_step slots op
    let s2 := run_cache r s1.1
    (s2.1, s1.2 ++ s2.2)

/-- The temporal property over an event trace: at every reassignment of a
then-dirty slot, a `block_write` of the slot's former sector has already
occurred.  `written` accumulates the sectors written back so far. -/
def ok_from (written : List Nat) : List CEvent → Bool
  | [] => true
  | CEvent.writeEv s :: r => ok_from (s :: written) r
  | CEvent.reassign _ old _ wasDirty :: r =>
    (!wasDirty || written.contains old) && ok_from written r
  | CEvent.readEv _ :: r => ok_from written r

theorem ok_from_append (t1 : List CEvent) : ∀ w t2, ok_from w t1 = true →
    (∀ w2, ok_from w2 t2 = true) → ok_from w (t1 ++ t2) = true := by
  induction t1 with
  | nil =>
    intro w t2 _ h2
    exact h2 w
  | cons e r ih =>
    intro w t2 h1 h2
    cases e with
    | writeEv s =>
      simp only [List.cons_append, ok_from] at h1 ⊢
      exact ih (s :: w) t2 h1 h2
    | reassign i old new wasDirty =>
      simp only [List.cons_append, ok_from] at h1 ⊢
      rw [Bool.and_eq_true] at h1 ⊢
      exact ⟨h1.1, ih w t2 h1.2 h2⟩
    | readEv s =>
      simp only [List.cons_append, ok_from] at h1 ⊢
      exact ih w t2 h1 h2

theorem allocate_buffer_ok (slots : List CSlot) (s : Nat) (w : List Nat) :
    ok_from w (allocate_buffer slots s).2 = true := by
  unfold allocate_buffer
  dsimp only
  cases (find_buffer slots s).2 with
  | none => rfl
  | some res =>
    cases res with
    | inl mid => rfl
    | inr vid =>
      dsimp only
      cases get_slot (find_buffer slots s).1 vid with
      | none => rfl
      | some b =>
        dsimp only
        by_cases hd : b.is_dirty = true
        · rw [if_pos hd, hd]
          simp [ok_from]
        · rw [if_neg hd]
          rw [Bool.not_eq_true] at hd
          simp [ok_from, hd]

theorem flush_loop_ok (fuel : Nat) : ∀ slots w, ok_from w (flush_loop fuel slots).2 = true := by
  induction fuel with
  | zero => intro slots w; rfl
  | succ n ih =>
    intro slots w
    unfold flush_loop
    cases hx : extract_first_dirty slots with
    | none => rfl
    | some p =>
      obtain ⟨b, rest⟩ := p
      dsimp only
      simp only [ok_from]
      exact ih _ _

theorem cache_step_ok (slots : List CSlot) (op : CacheOp) (w : List Nat) :
    ok_from w (cache_step slots op).2 = true := by
  cases op with
  | alloc s => exact allocate_buffer_ok slots s w
  | dealloc i d =>
    unfold cache_step deallocate_buffer
    dsimp only
    cases get_slot slots i with
    | none => rfl
    | some b => rfl
  | flush => exact flush_loop_ok slots.length slots w

/-- Claim C9 (confirmed, first half): over every sequence of
`allocate_buffer` / `deallocate_buffer` / `write_dirty_to_disk` calls from
any slot-pool state, the emitted device-I/O trace never reassigns a
then-dirty slot's sector without an earlier `block_write` of its former
sector. -/
theorem run_cache_ok (ops : List CacheOp) : ∀ slots w,
    ok_from w (run_cache ops slots).2 = true := by
  induction ops with
  | nil => intro slots w; rfl
  | cons op r ih =>
    intro slots w
    unfold run_cache
    dsimp only
    exact ok_from_append _ w _ (cache_step_ok slots op w) (fun w2 => ih _ w2)

/-- Claim C9 (confirmed).  In every sequence of buffer-cache operations a
then-dirty slot never has its sector reassigned without a `block_write` of
its former sector occurring earlier in the device-I/O trace (the trace
predicate `ok_from` demands, at each reassignment of a dirty slot, an
earlier write-back of the old sector).  Concretely: evicting the dirty slot
holding sector 7 in favour of sector 9 emits exactly write-back of 7,
then the reassignment, then the read of 9; and the periodic flush writes
the dirty slot back and clears it without any reassignment. -/
theorem c9_dirty_eviction_writes_back :
    (∀ ops slots, ok_from [] (run_cache ops slots).2 = true) ∧
    allocate_buffer [⟨0, 7, true, false, true⟩] 9
      = ([⟨0, 9, false, true, true⟩],
         [CEvent.writeEv 7, CEvent.reassign 0 7 9 true, CEvent.readEv 9]) ∧
    write_dirty_to_disk [⟨0, 7, true, false, true⟩]
      = ([⟨0, 7, false, false, true⟩], [CEvent.writeEv 7]) :=
  ⟨fun ops slots => run_cache_ok ops slots [], by decide, by decide⟩
